import Mathlib

/-!
Verification of the batching-and-aggregation pipeline of the `cvier`
repository (`src/ai_analyzer.py`, `src/local_loader.py`).

The Python code is shallowly embedded: JSON values are the inductive
type `JVal`, Python dicts are association lists, Python exceptions are
the `Except PyErr` monad, and the completion-model endpoint is a
parameter (the reply the model call would produce, `none` standing for
a raised transport error).
-/

/-- Python exception classes raised by the embedded code. -/
inductive PyErr where
  | typeError
  | keyError
  | attributeError
  | indexError
  | valueError
deriving DecidableEq, Repr

/-- JSON values as produced by `json.loads`.  Object members are kept as an
association list in insertion order (mirroring CPython dicts); numbers are
restricted to integers, the only numeric literals the claims exercise. -/
inductive JVal where
  | null
  | bool (b : Bool)
  | num (n : Int)
  | str (s : String)
  | arr (xs : List JVal)
  | obj (kvs : List (String × JVal))

mutual

/-- Boolean equality on JSON values (Python `==` on parsed JSON trees). -/
def JVal.beq : JVal → JVal → Bool
  | .null, .null => true
  | .bool a, .bool b => a == b
  | .num a, .num b => a == b
  | .str a, .str b => a == b
  | .arr xs, .arr ys => JVal.beqArr xs ys
  | .obj xs, .obj ys => JVal.beqObj xs ys
  | _, _ => false

/-- Elementwise equality of JSON arrays. -/
def JVal.beqArr : List JVal → List JVal → Bool
  | [], [] => true
  | x :: xs, y :: ys => JVal.beq x y && JVal.beqArr xs ys
  | _, _ => false

/-- Memberwise equality of JSON objects (as ordered association lists). -/
def JVal.beqObj : List (String × JVal) → List (String × JVal) → Bool
  | [], [] => true
  | (k, v) :: xs, (l, w) :: ys => k == l && JVal.beq v w && JVal.beqObj xs ys
  | _, _ => false

end

mutual

theorem JVal.beq_iff : ∀ a b : JVal, JVal.beq a b = true ↔ a = b
  | .null, b => by cases b <;> simp [JVal.beq]
  | .bool a, b => by cases b <;> simp [JVal.beq]
  | .num a, b => by cases b <;> simp [JVal.beq]
  | .str a, b => by cases b <;> simp [JVal.beq]
  | .arr xs, b => by
      cases b <;> simp [JVal.beq]
      exact JVal.beqArr_iff xs _
  | .obj xs, b => by
      cases b <;> simp [JVal.beq]
      exact JVal.beqObj_iff xs _

theorem JVal.beqArr_iff : ∀ xs ys : List JVal, JVal.beqArr xs ys = true ↔ xs = ys
  | [], ys => by cases ys <;> simp [JVal.beqArr]
  | x :: xs, ys => by
      cases ys with
      | nil => simp [JVal.beqArr]
      | cons y ys =>
          simp only [JVal.beqArr, Bool.and_eq_true, List.cons.injEq]
          rw [JVal.beq_iff x y, JVal.beqArr_iff xs ys]

theorem JVal.beqObj_iff :
    ∀ xs ys : List (String × JVal), JVal.beqObj xs ys = true ↔ xs = ys
  | [], ys => by cases ys <;> simp [JVal.beqObj]
  | (k, v) :: xs, ys => by
      cases ys with
      | nil => simp [JVal.beqObj]
      | cons p ys =>
          obtain ⟨l, w⟩ := p
          simp only [JVal.beqObj, Bool.and_eq_true, List.cons.injEq, Prod.mk.injEq,
            beq_iff_eq]
          rw [JVal.beq_iff v w, JVal.beqObj_iff xs ys]

end

instance : DecidableEq JVal := fun a b =>
  decidable_of_iff (JVal.beq a b = true) (JVal.beq_iff a b)

/-! ### String primitives

Python string operations used by the code, modelled on `List Char`
(one entry per code point, matching CPython's `str`). -/

/-- The characters Python's `str.strip()` removes (the ASCII whitespace
subset; the replies the code handles contain no exotic whitespace). -/
def isPySpace (c : Char) : Bool :=
  c = ' ' || c = '\t' || c = '\n' || c = '\r' || c = '\x0b' || c = '\x0c'

/-- `str.strip()` on a character list. -/
def pyStripL (s : List Char) : List Char :=
  ((s.dropWhile isPySpace).reverse.dropWhile isPySpace).reverse

/-- `str.strip()`. -/
def pyStrip (s : String) : String := ⟨pyStripL s.data⟩

/-- `a.startswith(b)` on character lists: is the first list a prefix of the
second. -/
def isPrefixL : List Char → List Char → Bool
  | [], _ => true
  | _ :: _, [] => false
  | a :: as, b :: bs => a == b && isPrefixL as bs

/-- `str.startswith`. -/
def pyStartsWith (s p : String) : Bool := isPrefixL p.data s.data

/-- `str.endswith`. -/
def pyEndsWith (s p : String) : Bool := isPrefixL p.data.reverse s.data.reverse

/-- Python's substring test `p in s` on character lists. -/
def containsSubL (p : List Char) : List Char → Bool
  | [] => isPrefixL p []
  | c :: rest => isPrefixL p (c :: rest) || containsSubL p rest

/-- Python's substring test `p in s`. -/
def pyInStr (p s : String) : Bool := containsSubL p.data s.data

/-- `s[n:]` (drop the first `n` characters). -/
def pyDropL (s : String) (n : Nat) : String := ⟨s.data.drop n⟩

/-- `s[:-n]` (drop the last `n` characters; Python's negative-stop slice). -/
def pyDropRight (s : String) (n : Nat) : String := ⟨s.data.take (s.data.length - n)⟩

/-- `s[:n]` (take the first `n` characters). -/
def pyTakeL (s : String) (n : Nat) : String := ⟨s.data.take n⟩

/-- `sep.join(parts)`. -/
def pyJoin (sep : String) : List String → String
  | [] => ""
  | [s] => s
  | s :: rest => s ++ sep ++ pyJoin sep rest

/-- `s.split(sep)` for a one-character separator, accumulator form. -/
def pySplitGo (sep : Char) : List Char → List Char → List (List Char)
  | [], cur => [cur.reverse]
  | c :: rest, cur =>
      if c = sep then cur.reverse :: pySplitGo sep rest []
      else pySplitGo sep rest (c :: cur)

/-- `s.split(sep)` for a one-character separator (e.g. `patch.split('\n')`). -/
def pySplitChar (sep : Char) (s : String) : List String :=
  (pySplitGo sep s.data []).map (fun cs => ⟨cs⟩)

/-! ### `json.loads`

A recursive-descent parser for the JSON fragment the pipeline exchanges
with the model: null, booleans, integers, strings (with the common
escapes), arrays and objects.  Python's `json.loads` on this fragment
behaves identically; floats and `\u` escapes are outside the fragment and
make the parser fail, which the claims never exercise. -/

/-- JSON insignificant whitespace (what Python's `json` module skips). -/
def isJsonWs (c : Char) : Bool :=
  c = ' ' || c = '\t' || c = '\n' || c = '\r'

/-- Skip insignificant whitespace. -/
def skipWs (cs : List Char) : List Char := cs.dropWhile isJsonWs

/-- ASCII digit test. -/
def isDigitC (c : Char) : Bool := '0' ≤ c && c ≤ '9'

/-- Body of a JSON string literal, after the opening quote.  Returns the
decoded characters and the input following the closing quote. -/
def parseStrBody : List Char → Option (List Char × List Char)
  | [] => none
  | '"' :: rest => some ([], rest)
  | '\\' :: c :: rest => do
      let e ←
        if c = '"' then some '"'
        else if c = '\\' then some '\\'
        else if c = '/' then some '/'
        else if c = 'n' then some '\n'
        else if c = 't' then some '\t'
        else if c = 'r' then some '\r'
        else if c = 'b' then some '\x08'
        else if c = 'f' then some '\x0c'
        else none
      let (cs, r) ← parseStrBody rest
      some (e :: cs, r)
  | c :: rest =>
      if c.toNat < 32 then none
      else do
        let (cs, r) ← parseStrBody rest
        some (c :: cs, r)

/-- Digits to a natural number. -/
def digitsToNat (ds : List Char) : Nat :=
  ds.foldl (fun n c => 10 * n + (c.toNat - 48)) 0

/-- An unsigned JSON integer: nonempty digit run, no redundant leading zero,
not continued by a fraction or exponent (floats are outside the fragment). -/
def parseNatPart (cs : List Char) : Option (Nat × List Char) :=
  let ds := cs.takeWhile isDigitC
  let rest := cs.dropWhile isDigitC
  if ds.isEmpty then none
  else if 1 < ds.length ∧ ds.head? = some '0' then none
  else
    match rest with
    | '.' :: _ => none
    | 'e' :: _ => none
    | 'E' :: _ => none
    | _ => some (digitsToNat ds, rest)

/-- A JSON number (integer fragment). -/
def parseNum (cs : List Char) : Option (JVal × List Char) :=
  match cs with
  | '-' :: rest => do
      let (n, r) ← parseNatPart rest
      some (JVal.num (-(n : Int)), r)
  | _ => do
      let (n, r) ← parseNatPart cs
      some (JVal.num (n : Int), r)

/-- Association-list read, mirroring `d[k]` / `d.get(k)` on a Python dict. -/
def alGet {α : Type} (d : List (String × α)) (k : String) : Option α :=
  match d with
  | [] => none
  | (k2, v) :: rest => if k2 = k then some v else alGet rest k

/-- Association-list write, mirroring `d[k] = v` on a Python dict: an
existing key keeps its position, a new key is appended at the end. -/
def alSet {α : Type} (d : List (String × α)) (k : String) (v : α) :
    List (String × α) :=
  match d with
  | [] => [(k, v)]
  | (k2, v2) :: rest =>
      if k2 = k then (k2, v) :: rest else (k2, v2) :: alSet rest k v

mutual

/-- One JSON value, starting at the first significant character.  Object
members are folded through `alSet`, so duplicate keys collapse the way a
CPython dict does (first occurrence fixes the position, last value wins). -/
def parseValue : Nat → List Char → Option (JVal × List Char)
  | 0, _ => none
  | fuel + 1, cs =>
    match cs with
    | '"' :: rest => do
        let (s, r) ← parseStrBody rest
        some (JVal.str ⟨s⟩, r)
    | '[' :: rest =>
        let r := skipWs rest
        match r with
        | ']' :: r2 => some (JVal.arr [], r2)
        | _ => do
            let (vs, r2) ← parseElems fuel r
            some (JVal.arr vs, r2)
    | '{' :: rest =>
        let r := skipWs rest
        match r with
        | '}' :: r2 => some (JVal.obj [], r2)
        | _ => do
            let (ms, r2) ← parseMembers fuel r
            some (JVal.obj (ms.foldl (fun d kv => alSet d kv.1 kv.2) []), r2)
    | 't' :: 'r' :: 'u' :: 'e' :: rest => some (JVal.bool true, rest)
    | 'f' :: 'a' :: 'l' :: 's' :: 'e' :: rest => some (JVal.bool false, rest)
    | 'n' :: 'u' :: 'l' :: 'l' :: rest => some (JVal.null, rest)
    | _ => parseNum cs

/-- Comma-separated array elements up to the closing bracket. -/
def parseElems : Nat → List Char → Option (List JVal × List Char)
  | 0, _ => none
  | fuel + 1, cs => do
      let (v, r) ← parseValue fuel cs
      match skipWs r with
      | ',' :: r2 => do
          let (vs, r3) ← parseElems fuel (skipWs r2)
          some (v :: vs, r3)
      | ']' :: r2 => some ([v], r2)
      | _ => none

/-- Comma-separated object members up to the closing brace. -/
def parseMembers : Nat → List Char → Option (List (String × JVal) × List Char)
  | 0, _ => none
  | fuel + 1, cs =>
    match cs with
    | '"' :: r => do
        let (k, r1) ← parseStrBody r
        match skipWs r1 with
        | ':' :: r2 => do
            let (v, r3) ← parseValue fuel (skipWs r2)
            match skipWs r3 with
            | ',' :: r4 => do
                let (ms, r5) ← parseMembers fuel (skipWs r4)
                some ((⟨k⟩, v) :: ms, r5)
            | '}' :: r4 => some ([(⟨k⟩, v)], r4)
            | _ => none
        | _ => none
    | _ => none

end

/-- `json.loads`: parse a complete JSON document; trailing content other
than whitespace is an error.  The fuel bounds the parser's recursion depth
and is generous for the input's length. -/
def json_loads (s : String) : Option JVal :=
  match parseValue (2 * s.length + 8) (skipWs s.data) with
  | some (v, rest) => if (skipWs rest).isEmpty then some v else none
  | none => none

/-! ### Record Compressor (`LocalPRLoader.compress_pr_data`) -/

/-- One entry of a record's file-change list, with the members
`compress_pr_data` reads (each read through `.get` with the default the
code supplies). -/
structure FileChange where
  filename : String
  status : String
  additions : Nat
  deletions : Nat
  patch : Option String
deriving DecidableEq, Repr

/-- A pull-request record, restricted to the members `compress_pr_data`
reads.  An `Option` field models a key the record may lack; each label is
the `name` member of one label dict (absent modelled as `none`). -/
structure Record where
  number : Option Int
  title : Option String
  body : Option String
  labels : List (Option String)
  state : Option String
  mergedAt : Option String
  createdAt : Option String
  comments : Nat
  files : List FileChange
deriving Repr

/-- The fixed exclude-path substrings. -/
def exclude_patterns : List String :=
  [".lock", "package-lock.json", "yarn.lock", "poetry.lock",
   ".idea/", ".vscode/", "node_modules/", "__pycache__/"]

/-- The fixed source-code extensions eligible for patch excerpting. -/
def code_extensions : List String :=
  [".py", ".ts", ".tsx", ".js", ".jsx", ".java", ".go", ".rs",
   ".cpp", ".c", ".rb", ".php", ".vue", ".html", ".css", ".scss"]

/-- The fixed structural keywords that make an added diff line
"interesting". -/
def structural_keywords : List String :=
  ["import ", "from ", "class ", "def ", "function ",
   "const ", "let ", "var ", "interface ", "type ",
   "@", "async ", "export "]

/-- The fixed extension-to-technology lookup table. -/
def tech_map : List (String × String) :=
  [("py", "Python"), ("js", "JavaScript"), ("jsx", "React"),
   ("ts", "TypeScript"), ("tsx", "React/TypeScript"), ("java", "Java"),
   ("go", "Go"), ("rs", "Rust"), ("cpp", "C++"), ("c", "C"),
   ("rb", "Ruby"), ("php", "PHP"), ("vue", "Vue"), ("html", "HTML"),
   ("css", "CSS"), ("scss", "SCSS"), ("yaml", "YAML"), ("yml", "YAML"),
   ("json", "JSON"), ("md", "Markdown"), ("sql", "SQL"), ("sh", "Shell")]

/-- The files surviving the exclude-path-substring filter
(`informative_files`). -/
def informativeFiles (files : List FileChange) : List FileChange :=
  files.filter (fun f => !(exclude_patterns.any (fun p => pyInStr p f.filename)))

/-- `str.lower()` (the extensions at hand are ASCII). -/
def pyLower (s : String) : String := ⟨s.data.map Char.toLower⟩

/-- `filename.split('.')[-1].lower()` guarded by `'.' in filename`. -/
def extOf (name : String) : Option String :=
  if name.data.contains '.' then
    some (pyLower ⟨(name.data.reverse.takeWhile (fun c => c ≠ '.')).reverse⟩)
  else none

/-- The technology tag a file contributes, if its extension is mapped. -/
def techOf (f : FileChange) : Option String :=
  (extOf f.filename).bind (fun e => alGet tech_map e)

/-- Lexicographic (code-point) order on strings, as Python compares them. -/
def charListLe : List Char → List Char → Bool
  | [], _ => true
  | _ :: _, [] => false
  | a :: as, b :: bs =>
      if a < b then true else if b < a then false else charListLe as bs

/-- Insert into a sorted list of strings. -/
def insertSorted (x : String) : List String → List String
  | [] => [x]
  | y :: ys => if charListLe x.data y.data then x :: y :: ys else y :: insertSorted x ys

/-- `sorted(...)` on strings (insertion sort; the inputs are distinct, so
this is the Python order). -/
def sortStrings (xs : List String) : List String := xs.foldr insertSorted []

/-- The `technologies` set of `compress_pr_data`, in the `sorted(...)` order
the output uses: tags are collected only while walking
`informative_files[:10]`.  The Python `set` is modelled by `dedup`, which is
faithful because only the sorted rendering of the set is ever observed. -/
def technologiesOf (files : List FileChange) : List String :=
  sortStrings ((((informativeFiles files).take 10).filterMap techOf).dedup)

/-- One `file_details` line: `  - path: +A -D (kind)`. -/
def fileDetailLine (f : FileChange) : String :=
  "  - " ++ f.filename ++ ": +" ++ toString f.additions ++ " -" ++
    toString f.deletions ++ " (" ++ f.status ++ ")"

/-- `files_with_patch`: surviving files with a truthy patch and a
source-code extension. -/
def filesWithPatch (files : List FileChange) : List FileChange :=
  (informativeFiles files).filter (fun f =>
    decide (f.patch.getD "" ≠ "") &&
      code_extensions.any (fun e => pyEndsWith f.filename e))

/-- Is a diff line an "interesting" added line: starts with a single `+`,
is not the `+++` header, and its stripped body contains a structural
keyword. -/
def isKeyLine (l : String) : Bool :=
  pyStartsWith l ("+") && !(pyStartsWith l ("+++")) &&
    structural_keywords.any (fun k => pyInStr k (pyStrip (pyDropL l 1)))

/-- The up-to-3 collected key lines of one patch, indented.  The source
loop appends matches and breaks at 3, which is filter-then-take-3. -/
def keyLinesOf (patch : String) : List String :=
  (((pySplitChar '\n' patch).filter isKeyLine).take 3).map (fun l => "    " ++ l)

/-- The "Key code changes" block (empty string when no file qualifies). -/
def keyChangesSection (files : List FileChange) : String :=
  let fwp := filesWithPatch files
  if fwp.isEmpty then ""
  else
    "\n\nKey code changes:" ++
      String.join ((fwp.take 5).map (fun f =>
        "\n  - " ++ f.filename ++ ": +" ++ toString f.additions ++ " -" ++
          toString f.deletions ++ " (" ++ f.status ++ ")" ++
          (let kls := keyLinesOf (f.patch.getD "")
           if kls.isEmpty then "" else "\n" ++ pyJoin "\n" kls)))

/-- The `Files changed` summary line exactly as the code formats it; its
`count`/`adds`/`dels` arguments are supplied by `filesSection`. -/
def filesChangedLine (count adds dels : Nat) : String :=
  "\n\nFiles changed (" ++ toString count ++ "): +" ++ toString adds ++
    " -" ++ toString dels

/-- Everything `compress_pr_data` appends when the record has file changes.
Note the summary line's count and totals range over `files` (all of them),
while the listing, tags, overflow marker and patches use
`informative_files`. -/
def filesSection (files : List FileChange) : String :=
  let inf := informativeFiles files
  filesChangedLine files.length
      ((files.map (fun f => f.additions)).sum)
      ((files.map (fun f => f.deletions)).sum) ++
    (let techs := technologiesOf files
     if techs.isEmpty then "" else "\nTechnologies: " ++ pyJoin ", " techs) ++
    "\n" ++ pyJoin "\n" ((inf.take 10).map fileDetailLine) ++
    (if 10 < inf.length then
      "\n  ... and " ++ toString (inf.length - 10) ++ " more files"
     else "") ++
    keyChangesSection files

/-- The derived lifecycle state: `merged` whenever the nested merge
timestamp is truthy, else the raw state (default `unknown`). -/
def recordState (r : Record) : String :=
  if r.mergedAt.getD "" ≠ "" then "merged" else r.state.getD "unknown"

/-- The base block of `compress_pr_data` (the stripped f-string). -/
def baseCompressed (r : Record) : String :=
  pyStrip ("\nPR #" ++ (match r.number with | some n => toString n | none => "N/A") ++
    ": " ++ r.title.getD "No title" ++
    "\nState: " ++ recordState r ++
    "\nCreated: " ++ r.createdAt.getD "N/A" ++
    "\nLabels: " ++
      (let ls := r.labels.map (fun l => l.getD "")
       if ls.isEmpty then "None" else pyJoin ", " ls) ++
    "\nComments: " ++ toString r.comments ++
    "\nDescription: " ++ pyTakeL (r.body.getD "") 300 ++ "...\n")

/-- `LocalPRLoader.compress_pr_data`. -/
def compress_pr_data (r : Record) : String :=
  baseCompressed r ++ (if r.files.isEmpty then "" else filesSection r.files)

/-! ### Python operations on JSON values

`_aggregate_results` and `_manual_aggregation` run ordinary Python
operations on whatever `json.loads` produced, so the embedding gives each
operation its CPython semantics, including the exception it raises. -/

/-- Is a JSON value a Python dict? -/
def isObjB (r : JVal) : Bool :=
  match r with
  | JVal.obj _ => true
  | _ => false

/-- `k in v` (membership test; `TypeError` on non-containers). -/
def pyContains (v : JVal) (k : String) : Except PyErr Bool :=
  match v with
  | .obj kvs => .ok (alGet kvs k).isSome
  | .arr xs => .ok (xs.any (fun x => decide (x = JVal.str k)))
  | .str s => .ok (pyInStr k s)
  | _ => .error .typeError

/-- `v[k]` with a string key. -/
def pyGetItem (v : JVal) (k : String) : Except PyErr JVal :=
  match v with
  | .obj kvs =>
      match alGet kvs k with
      | some w => .ok w
      | none => .error .keyError
  | _ => .error .typeError

/-- `v[k] = w` with a string key. -/
def pySetItem (v : JVal) (k : String) (w : JVal) : Except PyErr JVal :=
  match v with
  | .obj kvs => .ok (.obj (alSet kvs k w))
  | _ => .error .typeError

/-- `v.get(k, dflt)`; only dicts have `.get` (`AttributeError` otherwise). -/
def pyDictGet (v : JVal) (k : String) (dflt : JVal) : Except PyErr JVal :=
  match v with
  | .obj kvs => .ok ((alGet kvs k).getD dflt)
  | _ => .error .attributeError

/-- Python truthiness of a JSON value. -/
def pyTruthy (v : JVal) : Bool :=
  match v with
  | .null => false
  | .bool b => b
  | .num n => decide (n ≠ 0)
  | .str s => decide (s ≠ "")
  | .arr xs => !xs.isEmpty
  | .obj kvs => !kvs.isEmpty

/-- The element sequence `iter(v)` yields (`TypeError` on non-iterables);
iterating a string yields its characters, iterating a dict its keys. -/
def pyElems (v : JVal) : Except PyErr (List JVal) :=
  match v with
  | .arr xs => .ok xs
  | .str s => .ok (s.data.map (fun c => JVal.str ⟨[c]⟩))
  | .obj kvs => .ok (kvs.map (fun kv => JVal.str kv.1))
  | _ => .error .typeError

/-- Is a value hashable (usable as a `set` element)? -/
def pyHashable (v : JVal) : Bool :=
  match v with
  | .arr _ => false
  | .obj _ => false
  | _ => true

/-- `list(set(xs))`: drops exact duplicates; `TypeError` on an unhashable
element.  CPython's set order is arbitrary, which `dedup` models soundly
because every downstream observation of this list is order-insensitive
(the spec marks the order unspecified). -/
def pyListSet (xs : List JVal) : Except PyErr (List JVal) :=
  if xs.all pyHashable then .ok xs.dedup else .error .typeError

/-! ### Batch Summarizer and Aggregator (`GroqAnalyzer`)

The completion-model endpoint is out of scope, so each embedded function
takes the reply its model call would produce: `none` when the invocation
raises, `some raw` when it returns text `raw`. -/

/-- The code-fence cleanup both parse sites perform: drop a leading
"```json" token, then a leading "```", then a trailing "```". -/
def stripFences (c : String) : String :=
  let c1 := if pyStartsWith c ("```json") then pyDropL c 7 else c
  let c2 := if pyStartsWith c1 ("```") then pyDropL c1 3 else c1
  if pyEndsWith c2 ("```") then pyDropRight c2 3 else c2

/-- The whole parse step applied to a raw model reply: the reply is
stripped (`content.strip()`), fence markers are removed, and the result is
stripped again and handed to `json.loads`. -/
def parse_llm_reply (raw : String) : Option JVal :=
  json_loads (pyStrip (stripFences (pyStrip raw)))

/-- `{field: [] for field in fields}`-style dict builder. -/
def pyDictFromKeys (fields : List String) (v : JVal) : List (String × JVal) :=
  fields.foldl (fun d f => alSet d f v) []

/-- The empty BatchResult `_analyze_batch` substitutes on any caught
failure: every requested field mapped to `[]`, empty partial summary. -/
def emptyBatchResult (fields : List String) : JVal :=
  .obj [("fields", .obj (pyDictFromKeys fields (JVal.arr []))),
        ("partial_summary", .str "")]

/-- `GroqAnalyzer._analyze_batch`.  The prompt is built before the `try`
block and interpolates `fields[0]`, so an empty field list raises
`IndexError` out of the function; afterwards every failure (model call,
JSON parse, anything else) is caught and converted to the empty
BatchResult, and a successful parse is returned as-is.  The batch itself
only feeds the prompt, never the result. -/
def analyze_batch (reply : Option String) (batch : List Record)
    (fields : List String) : Except PyErr JVal :=
  let _ := batch.map compress_pr_data
  if fields.isEmpty then .error .indexError
  else
    match reply with
    | none => .ok (emptyBatchResult fields)
    | some raw =>
        match parse_llm_reply raw with
        | some v => .ok v
        | none => .ok (emptyBatchResult fields)

/-- One iteration of the normalization loop of `_aggregate_results`:
`if field not in result["fields"]: result["fields"][field] = []`, with
CPython exception semantics (the mutation of the inner dict is modelled by
writing the updated dict back into the outer one). -/
def ensureFieldStep (r : JVal) (f : String) : Except PyErr JVal := do
  let fv ← pyGetItem r ("fields")
  let mem ← pyContains fv f
  if mem then pure r
  else do
    let fv2 ← pySetItem fv f (JVal.arr [])
    pySetItem r ("fields") fv2

/-- The post-parse normalization of `_aggregate_results`:
`if "fields" not in result: result["fields"] = {}` followed by
`for field in fields: if field not in result["fields"]:
result["fields"][field] = []`, with CPython exception semantics. -/
def ensureFields (result : JVal) (fields : List String) : Except PyErr JVal := do
  let hasF ← pyContains result ("fields")
  let r ← if hasF then pure result else pySetItem result ("fields") (JVal.obj [])
  fields.foldlM ensureFieldStep r

/-- One iteration of the inner merge loop of `_manual_aggregation`:
`items = result_fields.get(field, []); merged_fields[field].extend(items)`. -/
def mergeFieldStep (rf : JVal) (d : List (String × List JVal)) (f : String) :
    Except PyErr (List (String × List JVal)) := do
  let items ← pyDictGet rf f (JVal.arr [])
  let cur ← match alGet d f with
    | some xs => pure xs
    | none => Except.error PyErr.keyError
  let new ← pyElems items
  pure (alSet d f (cur ++ new))

/-- One iteration of the outer merge loop of `_manual_aggregation`:
`result_fields = result.get("fields", {})`, then the inner loop over the
requested fields. -/
def mergeBatchStep (fields : List String) (d : List (String × List JVal))
    (r : JVal) : Except PyErr (List (String × List JVal)) := do
  let rf ← pyDictGet r ("fields") (JVal.obj [])
  fields.foldlM (mergeFieldStep rf) d

/-- One iteration of the deduplication loop of `_manual_aggregation`:
`merged_fields[field] = list(set(merged_fields[field]))`. -/
def dedupFieldStep (d : List (String × List JVal)) (f : String) :
    Except PyErr (List (String × List JVal)) := do
  let cur ← match alGet d f with
    | some xs => pure xs
    | none => Except.error PyErr.keyError
  let ds ← pyListSet cur
  pure (alSet d f ds)

/-- One iteration of the summary comprehension of `_manual_aggregation`:
keep `r.get("partial_summary", "")` when truthy. -/
def summaryStep (acc : List JVal) (r : JVal) : Except PyErr (List JVal) := do
  let t ← pyDictGet r ("partial_summary") (JVal.str "")
  pure (if pyTruthy t then acc ++ [t] else acc)

/-- `GroqAnalyzer._manual_aggregation` over the JSON values the batch stage
produced: initialize every requested field to an empty list, extend it
with each batch's entries for that field in input order, deduplicate via
`list(set(...))`, and join the truthy partial summaries with single
spaces, substituting the fixed fallback sentence when that join is
empty. -/
def manual_aggregation (batch_results : List JVal) (fields : List String) :
    Except PyErr JVal := do
  let merged ← batch_results.foldlM (mergeBatchStep fields)
    (fields.foldl (fun d f => alSet d f []) [])
  let deduped ← fields.foldlM dedupFieldStep merged
  let summaries ← batch_results.foldlM summaryStep []
  let parts ← summaries.mapM (fun t =>
    match t with
    | .str s => Except.ok s
    | _ => Except.error PyErr.typeError)
  let combined := pyJoin (" ") parts
  pure (.obj [("fields", .obj (deduped.map (fun kv => (kv.1, JVal.arr kv.2)))),
    ("summary", .str (if combined = "" then "Analysis completed successfully." else combined))])

/-- `GroqAnalyzer._aggregate_results`.  Before the `try` block the code
builds the `Batch i:` summary lines (each a `.get` on a batch result, so a
non-dict batch result raises) and the prompt, whose f-string interpolates
`fields[0]`.  Inside the `try`, a model failure, a JSON parse failure, or
any error in the post-parse normalization falls back to
`_manual_aggregation`; a normalized parse is returned directly. -/
def aggregate_results (reply : Option String) (batch_results : List JVal)
    (fields : List String) : Except PyErr JVal := do
  let _ ← batch_results.mapM (fun r => pyDictGet r ("partial_summary") (JVal.str ""))
  if fields.isEmpty then .error .indexError
  else
    match reply with
    | none => manual_aggregation batch_results fields
    | some raw =>
        match parse_llm_reply raw with
        | none => manual_aggregation batch_results fields
        | some v =>
            match ensureFields v fields with
            | .ok v2 => .ok v2
            | .error _ => manual_aggregation batch_results fields

/-- Which way `_aggregate_results` resolves: `none` when the function
itself raises before the `try` block, `some true` when the manual fallback
runs, `some false` when the model-assisted result is returned. -/
def aggregateUsedFallback (reply : Option String) (batch_results : List JVal)
    (fields : List String) : Option Bool :=
  if batch_results.all isObjB then
    if fields.isEmpty then none
    else
      match reply with
      | none => some true
      | some raw =>
          match parse_llm_reply raw with
          | none => some true
          | some v =>
              match ensureFields v fields with
              | .ok _ => some false
              | .error _ => some true
  else none

/-! ### Batcher and pipeline entry point -/

/-- `PRBatcher.create_batches`: empty input short-circuits to `[]`;
otherwise `prs[i:i+n]` for `i in range(0, len(prs), n)` (which raises
`ValueError` for a zero step). -/
def create_batches {α : Type} (prs : List α) (n : Nat) :
    Except PyErr (List (List α)) :=
  if prs.isEmpty then .ok []
  else if n = 0 then .error .valueError
  else .ok ((List.range ((prs.length + n - 1) / n)).map
    (fun j => (prs.drop (j * n)).take n))

/-- `GroqAnalyzer.analyze_prs`.  `replies i` is the reply of the model call
for batch `i`, `aggReply` the reply of the aggregation call.  An empty
record list short-circuits to the fixed trivial result before any batching
or model work; otherwise each batch is summarized in order (an uncaught
exception aborts the run) and the batch results are aggregated. -/
def analyze_prs (replies : Nat → Option String) (aggReply : Option String)
    (prs : List Record) (fields : List String) (batch_size : Nat) :
    Except PyErr JVal :=
  if prs.isEmpty then
    .ok (.obj [("fields", .obj []), ("summary", .str "No data available")])
  else do
    let batches ← create_batches prs batch_size
    let batch_results ← batches.enum.mapM
      (fun ib => analyze_batch (replies ib.1) ib.2 fields)
    aggregate_results aggReply batch_results fields

/-! ### The BatchResult shape of the spec's data model

The spec's data model fixes a BatchResult as `{fields : mapping(field
name → list of strings), partial_summary : string}`, with the Aggregator
required to tolerate missing or extra keys.  `isWFBatchResult` states that
shape on a decoded JSON value, relative to the requested field list. -/

/-- Does a JSON value have the BatchResult shape of the data model: an
object whose `fields` member, when present, is an object mapping each
requested field (when present) to an array of strings, and whose
`partial_summary` member, when present, is a string. -/
def isWFBatchResult (fields : List String) (r : JVal) : Bool :=
  match r with
  | .obj kvs =>
      (match alGet kvs "fields" with
       | none => true
       | some (.obj fkvs) =>
           fields.all (fun f =>
             match alGet fkvs f with
             | none => true
             | some (.arr xs) =>
                 xs.all (fun x => match x with | .str _ => true | _ => false)
             | some _ => false)
       | some _ => false) &&
      (match alGet kvs "partial_summary" with
       | none => true
       | some (.str _) => true
       | some _ => false)
  | _ => false

/-- The entries one batch result contributes for one field, according to
the spec's reading: the field's list in the batch's `fields` mapping, or
nothing when the batch omitted the field. -/
def batchItems (r : JVal) (f : String) : List String :=
  match r with
  | .obj kvs =>
      match alGet kvs "fields" with
      | some (.obj fkvs) =>
          match alGet fkvs f with
          | some (.arr xs) =>
              xs.filterMap (fun x => match x with | .str s => some s | _ => none)
          | _ => []
      | _ => []
  | _ => []

/-- One batch result's partial summary (empty when absent). -/
def batchSummary (r : JVal) : String :=
  match r with
  | .obj kvs =>
      match alGet kvs "partial_summary" with
      | some (.str s) => s
      | _ => ""
  | _ => ""

/-- Spec-side description of the fallback merge's raw entry list for one
field: every batch's entries, in input order. -/
def specCollected (brs : List JVal) (f : String) : List String :=
  (brs.map (fun r => batchItems r f)).flatten

/-- Spec-side description of the fallback summary: the non-empty partial
summaries joined by single spaces, or the fixed sentence when none
exists. -/
def specSummary (brs : List JVal) : String :=
  let c := pyJoin " " (((brs.map batchSummary).filter (fun s => s ≠ "")))
  if c = "" then "Analysis completed successfully." else c

/-! ### Association-list lemmas -/

theorem alGet_alSet {α : Type} (d : List (String × α)) (k k2 : String) (v : α) :
    alGet (alSet d k v) k2 = if k = k2 then some v else alGet d k2 := by
  induction d with
  | nil => rfl
  | cons p rest ih =>
      obtain ⟨k3, v3⟩ := p
      by_cases h : k3 = k
      · subst h
        by_cases h2 : k3 = k2 <;> simp [alSet, alGet, h2]
      · by_cases h2 : k3 = k2
        · subst h2
          have hk : ¬ k = k3 := fun he => h he.symm
          simp [alSet, alGet, h, hk]
        · simp [alSet, alGet, h, h2, ih]

theorem alGet_foldl_const {α : Type} (v : α) (fs : List String)
    (d : List (String × α)) (k : String) :
    alGet (fs.foldl (fun d f => alSet d f v) d) k =
      if k ∈ fs then some v else alGet d k := by
  induction fs generalizing d with
  | nil => simp
  | cons f rest ih =>
      simp only [List.foldl_cons, ih, alGet_alSet, List.mem_cons]
      by_cases h1 : k ∈ rest
      · simp [h1]
      · by_cases h2 : f = k
        · simp [h1, h2]
        · have h3 : ¬ k = f := fun he => h2 he.symm
          simp [h1, h2, h3]

theorem alSet_alSet {α : Type} (d : List (String × α)) (k : String) (v w : α) :
    alSet (alSet d k v) k w = alSet d k w := by
  induction d with
  | nil => simp [alSet]
  | cons p rest ih =>
      obtain ⟨k3, v3⟩ := p
      by_cases h : k3 = k <;> simp [alSet, h, ih]

theorem alGet_map_values {α β : Type} (g : α → β) (d : List (String × α)) (k : String) :
    alGet (d.map (fun kv => (kv.1, g kv.2))) k = (alGet d k).map g := by
  induction d with
  | nil => rfl
  | cons p rest ih =>
      obtain ⟨k3, v3⟩ := p
      by_cases h : k3 = k <;> simp [alGet, h, ih]

/-! ### Batcher lemmas -/

theorem chunks_flatten {α : Type} (n : Nat) (hn : 0 < n) :
    ∀ (L : Nat) (l : List α), l.length ≤ L →
      ((List.range ((l.length + n - 1) / n)).map
        (fun j => (l.drop (j * n)).take n)).flatten = l := by
  intro L
  induction L with
  | zero =>
      intro l hl
      have hl2 : l = [] := List.eq_nil_of_length_eq_zero (Nat.le_zero.mp hl)
      subst hl2
      simp [Nat.div_eq_of_lt (show 0 + n - 1 < n by omega)]
  | succ L ih =>
      intro l hl
      rcases eq_or_ne l [] with rfl | hne
      · simp [Nat.div_eq_of_lt (show 0 + n - 1 < n by omega)]
      · have hlen : 1 ≤ l.length := List.length_pos.mpr hne
        have hk : (l.length + n - 1) / n = (l.length - 1) / n + 1 := by
          have h1 : l.length + n - 1 = (l.length - 1) + n := by omega
          rw [h1, Nat.add_div_right _ hn]
        rw [hk, List.range_succ_eq_map]
        simp only [List.map_cons, List.map_map, List.flatten_cons, Nat.zero_mul,
          List.drop_zero]
        by_cases hsmall : l.length ≤ n
        · have h0 : (l.length - 1) / n = 0 := Nat.div_eq_of_lt (by omega)
          rw [h0]
          simp [List.take_of_length_le hsmall]
        · push_neg at hsmall
          have hfun : ((fun j => (l.drop (j * n)).take n) ∘ Nat.succ) =
              (fun j => ((l.drop n).drop (j * n)).take n) := by
            funext j
            simp only [Function.comp_apply, List.drop_drop]
            congr 2
            simp [Nat.succ_mul, Nat.add_comm]
          rw [hfun]
          have hlen2 : (l.drop n).length = l.length - n := List.length_drop n l
          have hk2 : (l.length - 1) / n = ((l.drop n).length + n - 1) / n := by
            rw [hlen2]
            congr 1
            omega
          rw [hk2, ih (l.drop n) (by rw [hlen2]; omega)]
          exact List.take_append_drop n l

/-! ### Claim C5 -/

/-- C5: for every record list of length `L` and every batch size `n > 0`,
`create_batches` returns `ceil(L/n)` batches; batch `i` is the contiguous
slice `prs[i*n : i*n+n]`; every batch except possibly the last has length
`n` and the last has length `L mod n` (or `n` when `n` divides `L`);
concatenating the batches reproduces the input; the empty input yields the
empty batch sequence, never an error. -/
theorem create_batches_spec {α : Type} (prs : List α) (n : Nat) (hn : 0 < n) :
    ∃ bs : List (List α),
      create_batches prs n = .ok bs ∧
      bs.length = (prs.length + n - 1) / n ∧
      (∀ i (h : i < bs.length), bs[i] = (prs.drop (i * n)).take n) ∧
      (∀ i (h : i < bs.length), i + 1 < bs.length → bs[i].length = n) ∧
      (prs ≠ [] → ∀ h : bs.length - 1 < bs.length,
        bs[bs.length - 1].length =
          if prs.length % n = 0 then n else prs.length % n) ∧
      bs.flatten = prs ∧
      (prs = [] → bs = []) := by
  rcases eq_or_ne prs [] with rfl | hne
  · refine ⟨[], rfl, ?_, ?_, ?_, ?_, rfl, fun _ => rfl⟩
    · simp only [List.length_nil]
      symm
      exact Nat.div_eq_of_lt (by omega)
    · intro i h
      simp at h
    · intro i h
      simp at h
    · intro hc
      exact absurd rfl hc
  · have hn0 : n ≠ 0 := Nat.pos_iff_ne_zero.mp hn
    have hL : 1 ≤ prs.length := List.length_pos.mpr hne
    refine ⟨(List.range ((prs.length + n - 1) / n)).map
      (fun j => (prs.drop (j * n)).take n), ?_, ?_, ?_, ?_, ?_, ?_, ?_⟩
    · simp [create_batches, hne, hn0]
    · simp
    · intro i h
      simp [List.getElem_map]
    · intro i h hi
      simp only [List.getElem_map, List.getElem_range, List.length_map,
        List.length_range] at h hi ⊢
      have hk : (prs.length + n - 1) / n = (prs.length - 1) / n + 1 := by
        have h1 : prs.length + n - 1 = (prs.length - 1) + n := by omega
        rw [h1, Nat.add_div_right _ hn]
      have h1 : i + 1 ≤ (prs.length - 1) / n := by omega
      have h2 : (i + 1) * n ≤ ((prs.length - 1) / n) * n := Nat.mul_le_mul_right n h1
      have h3 : ((prs.length - 1) / n) * n ≤ prs.length - 1 := Nat.div_mul_le_self _ _
      have h4 : (i + 1) * n = i * n + n := Nat.succ_mul i n
      simp only [List.length_take, List.length_drop]
      omega
    · intro _ h
      simp only [List.getElem_map, List.getElem_range, List.length_map,
        List.length_range] at h ⊢
      set L := prs.length with hLdef
      have hk : (L + n - 1) / n = (L - 1) / n + 1 := by
        have h1 : L + n - 1 = (L - 1) + n := by omega
        rw [h1, Nat.add_div_right _ hn]
      set d := (L - 1) / n with hddef
      set m := (L - 1) % n with hmdef
      have hdm : n * d + m = L - 1 := Nat.div_add_mod _ n
      have hm : m < n := Nat.mod_lt _ hn
      have hcm : n * d = d * n := Nat.mul_comm _ _
      have he : L = n * d + (m + 1) := by omega
      have hmod : L % n = (m + 1) % n := by
        rw [he, Nat.mul_add_mod]
      have hidx : (L + n - 1) / n - 1 = d := by omega
      rw [hidx]
      simp only [List.length_take, List.length_drop]
      by_cases hc : m + 1 = n
      · have h0 : L % n = 0 := by
          rw [hmod, hc, Nat.mod_self]
        rw [if_pos h0]
        omega
      · have hlt : m + 1 < n := by omega
        have h1 : L % n = m + 1 := by
          rw [hmod, Nat.mod_eq_of_lt hlt]
        rw [if_neg (by omega), h1]
        omega
    · exact chunks_flatten n hn prs.length prs le_rfl
    · intro hc; exact absurd hc hne

/-! ### Claim C10 -/

theorem mem_insertSorted (x y : String) (l : List String) :
    y ∈ insertSorted x l ↔ y = x ∨ y ∈ l := by
  induction l with
  | nil => simp [insertSorted]
  | cons z zs ih =>
      by_cases h : charListLe x.data z.data = true
      · simp [insertSorted, h]
      · simp only [insertSorted, if_neg h, List.mem_cons, ih]
        tauto

theorem mem_sortStrings (y : String) (l : List String) :
    y ∈ sortStrings l ↔ y ∈ l := by
  induction l with
  | nil => simp [sortStrings]
  | cons z zs ih =>
      simp only [sortStrings, List.foldr_cons] at ih ⊢
      rw [mem_insertSorted, ih, List.mem_cons]

/-- C10: a technology tag appears in the compressed record's technology
set exactly when one of the first 10 surviving (non-excluded) files has an
extension mapped to it; a mapped extension occurring only on the 11th or a
later surviving file contributes nothing. -/
theorem technologies_first_ten_files (files : List FileChange) (t : String) :
    t ∈ technologiesOf files ↔
      ∃ f ∈ (informativeFiles files).take 10, techOf f = some t := by
  unfold technologiesOf
  rw [mem_sortStrings, List.mem_dedup, List.mem_filterMap]

/-! ### Claim C9 -/

theorem alSet_of_get {α : Type} (d : List (String × α)) (k : String) (v : α)
    (h : alGet d k = some v) : alSet d k v = d := by
  induction d with
  | nil => simp [alGet] at h
  | cons p rest ih =>
      obtain ⟨k3, v3⟩ := p
      by_cases hk : k3 = k
      · subst hk
        have h2 : v3 = v := by simpa [alGet] using h
        subst h2
        simp [alSet]
      · simp only [alGet, if_neg hk] at h
        simp [alSet, hk, ih h]

/-- A deduplication-loop iteration leaves the dict unchanged when the
field's current list is empty. -/
theorem dedupFieldStep_of_empty (d : List (String × List JVal)) (f : String)
    (h : alGet d f = some []) : dedupFieldStep d f = pure d := by
  unfold dedupFieldStep
  rw [h]
  have hset : alSet d f [] = d := alSet_of_get d f [] h
  simp [bind, Except.bind, pure, Except.pure, pyListSet, hset]

/-- The deduplication loop leaves a dict unchanged when every requested
field is currently an empty list. -/
theorem dedup_fold_of_empty (fs : List String) (d : List (String × List JVal))
    (h : ∀ f ∈ fs, alGet d f = some []) :
    fs.foldlM dedupFieldStep d = pure d := by
  induction fs with
  | nil => rfl
  | cons f rest ih =>
      rw [List.foldlM_cons, dedupFieldStep_of_empty d f (h f (List.mem_cons_self f rest)),
        pure_bind]
      exact ih (fun g hg => h g (List.mem_cons_of_mem f hg))

/-- `_manual_aggregation` on the empty batch list: every requested field
present and empty, and the fixed fallback summary. -/
theorem manual_aggregation_nil (fields : List String) :
    manual_aggregation [] fields =
      .ok (.obj [("fields", .obj ((fields.foldl (fun d f => alSet d f ([] : List JVal)) []).map
          (fun kv => (kv.1, JVal.arr kv.2)))),
        ("summary", .str "Analysis completed successfully.")]) := by
  unfold manual_aggregation
  have hdedup := dedup_fold_of_empty fields
    (fields.foldl (fun d f => alSet d f ([] : List JVal)) [])
    (fun f hf => by rw [alGet_foldl_const]; simp [hf])
  simp only [List.foldlM_nil, List.mapM_nil, pure_bind, hdedup]
  rfl

/-- C9: with a non-empty field list and an empty record list, the pipeline
entry point returns exactly `{"fields": {}, "summary": "No data
available"}`; no requested field name is a key of that `fields` mapping,
although every aggregation-path result would contain each requested
field. -/
theorem analyze_prs_empty_input (replies : Nat → Option String)
    (aggReply : Option String) (fields : List String) (batch_size : Nat)
    (hf : fields ≠ []) :
    analyze_prs replies aggReply [] fields batch_size =
      .ok (.obj [("fields", .obj []), ("summary", .str "No data available")]) ∧
    (∀ f ∈ fields, alGet ([] : List (String × JVal)) f = none) ∧
    (∃ kvs fobj, manual_aggregation [] fields = .ok (.obj kvs) ∧
      alGet kvs "fields" = some (.obj fobj) ∧
      ∀ f ∈ fields, (alGet fobj f).isSome) := by
  refine ⟨rfl, fun f _ => rfl, ?_⟩
  refine ⟨_, ((fields.foldl (fun d f => alSet d f ([] : List JVal)) []).map
    (fun kv => (kv.1, JVal.arr kv.2))), manual_aggregation_nil fields, ?_, ?_⟩
  · simp [alGet]
  · intro f hf2
    rw [alGet_map_values, alGet_foldl_const]
    simp [hf2]

/-- Witness for C9 at a concrete field list. -/
theorem analyze_prs_empty_input_witness :
    (["Skills"] ≠ ([] : List String)) ∧
    (analyze_prs (fun _ => none) none [] ["Skills"] 15 =
      .ok (.obj [("fields", .obj []), ("summary", .str "No data available")]) ∧
    (∀ f ∈ ["Skills"], alGet ([] : List (String × JVal)) f = none) ∧
    (∃ kvs fobj, manual_aggregation [] ["Skills"] = .ok (.obj kvs) ∧
      alGet kvs "fields" = some (.obj fobj) ∧
      ∀ f ∈ ["Skills"], (alGet fobj f).isSome)) :=
  ⟨by decide, analyze_prs_empty_input (fun _ => none) none ["Skills"] 15 (by decide)⟩

/-! ### Claim C2 -/

/-- C2 counterexample: with a non-empty batch, an empty requested-field
list makes `_analyze_batch` raise `IndexError` while interpolating
`fields[0]` into the prompt — built before the `try` block — even though
the model reply is perfectly well-formed; it does not return a
BatchResult. -/
theorem analyze_batch_empty_fields_cex :
    analyze_batch
      (some ("\x7b\"fields\": \x7b\x7d, \"partial_summary\": \"ok\"\x7d"))
      [⟨some 1, some "T", none, [], some "open", none, some "2024-01-01", 0, []⟩]
      [] = .error .indexError := rfl

/-- C2 (amended): for every batch and every non-empty requested field
list, `_analyze_batch` returns exactly one result and never raises;
whenever the model invocation raises or its reply fails to parse as JSON
after fence-stripping, the result is the empty BatchResult, which maps
every requested field to the empty list and has an empty partial summary.
(An empty field list instead raises `IndexError` during prompt
construction.) -/
theorem analyze_batch_resilience_amended (reply : Option String)
    (batch : List Record) (fields : List String) (hf : fields ≠ []) :
    (∃ v, analyze_batch reply batch fields = .ok v) ∧
    ((reply = none ∨ ∃ raw, reply = some raw ∧ parse_llm_reply raw = none) →
      analyze_batch reply batch fields = .ok (emptyBatchResult fields)) ∧
    (∃ fkvs, emptyBatchResult fields =
        .obj [("fields", .obj fkvs), ("partial_summary", .str "")] ∧
      ∀ f, alGet fkvs f = if f ∈ fields then some (.arr []) else none) := by
  have hfe : fields.isEmpty = false := by
    cases fields with
    | nil => exact absurd rfl hf
    | cons a l => rfl
  refine ⟨?_, ?_, ?_⟩
  · unfold analyze_batch
    rw [hfe]
    cases reply with
    | none => exact ⟨emptyBatchResult fields, rfl⟩
    | some raw =>
        cases hp : parse_llm_reply raw with
        | none => exact ⟨emptyBatchResult fields, by simp [hp]⟩
        | some v => exact ⟨v, by simp [hp]⟩
  · intro h
    unfold analyze_batch
    rw [hfe]
    rcases h with rfl | ⟨raw, rfl, hpn⟩
    · rfl
    · simp [hpn]
  · refine ⟨pyDictFromKeys fields (JVal.arr []), rfl, ?_⟩
    intro f
    unfold pyDictFromKeys
    rw [alGet_foldl_const]
    by_cases h : f ∈ fields <;> simp [h, alGet]

/-- Witness for C2 (amended) at a concrete failing reply. -/
theorem analyze_batch_resilience_amended_witness :
    (["Skills"] ≠ ([] : List String)) ∧
    ((∃ v, analyze_batch none [] ["Skills"] = .ok v) ∧
    ((none = (none : Option String) ∨
        ∃ raw, (none : Option String) = some raw ∧ parse_llm_reply raw = none) →
      analyze_batch none [] ["Skills"] = .ok (emptyBatchResult ["Skills"])) ∧
    (∃ fkvs, emptyBatchResult ["Skills"] =
        .obj [("fields", .obj fkvs), ("partial_summary", .str "")] ∧
      ∀ f, alGet fkvs f = if f ∈ ["Skills"] then some (.arr []) else none)) :=
  ⟨by decide, analyze_batch_resilience_amended none [] ["Skills"] (by decide)⟩

/-! ### Claim C4 -/

/-- `create_batches` on a non-empty list with a positive batch size
produces a non-empty batch list. -/
theorem create_batches_cons {α : Type} (a : α) (l : List α) (n : Nat)
    (hn : 0 < n) :
    ∃ b bs, create_batches (a :: l) n = .ok (b :: bs) := by
  have hn0 : n ≠ 0 := Nat.pos_iff_ne_zero.mp hn
  unfold create_batches
  have h1 : (a :: l).isEmpty = false := rfl
  rw [h1]
  simp only [Bool.false_eq_true, if_false, if_neg hn0]
  have hk : ((a :: l).length + n - 1) / n = l.length / n + 1 := by
    have h2 : (a :: l).length + n - 1 = l.length + n := by
      simp only [List.length_cons]
      omega
    rw [h2, Nat.add_div_right _ hn]
  rw [hk, List.range_succ_eq_map]
  exact ⟨_, _, rfl⟩

/-- C4 counterexample: with a non-empty record list, an empty field list
is not short-circuited: `analyze_prs` raises `IndexError` (from the first
batch's prompt construction) even though every model reply is
well-formed. -/
theorem analyze_prs_empty_fields_cex :
    analyze_prs (fun _ => some ("\x7b\"fields\": \x7b\x7d\x7d")) (some ("\x7b\x7d"))
      [⟨some 1, some "T", none, [], some "open", none, some "2024-01-01", 0, []⟩]
      [] 15 = .error .indexError := rfl

/-- C4 (amended): an empty record list is short-circuited to the fixed
trivial result before batching or any model call, for every reply
behaviour.  An absent/empty field list with a non-empty record list is NOT
short-circuited: the first batch's prompt construction raises
`IndexError`, which propagates out of `analyze_prs`; no model reply is
ever consulted (the result is the same for every `replies`/`aggReply`). -/
theorem analyze_prs_contract_amended (replies : Nat → Option String)
    (aggReply : Option String) (r : Record) (prs : List Record)
    (fields : List String) (batch_size : Nat) (hbs : 0 < batch_size) :
    analyze_prs replies aggReply [] fields batch_size =
      .ok (.obj [("fields", .obj []), ("summary", .str "No data available")]) ∧
    analyze_prs replies aggReply (r :: prs) [] batch_size =
      .error .indexError := by
  constructor
  · rfl
  · obtain ⟨b, bs, hcb⟩ := create_batches_cons r prs batch_size hbs
    unfold analyze_prs
    have h1 : (r :: prs).isEmpty = false := rfl
    rw [h1]
    simp only [Bool.false_eq_true, if_false, hcb]
    rfl

/-- Witness for C4 (amended) at a concrete record and batch size. -/
theorem analyze_prs_contract_amended_witness :
    0 < 15 ∧
    (analyze_prs (fun _ => none) none [] ["Skills"] 15 =
      .ok (.obj [("fields", .obj []), ("summary", .str "No data available")]) ∧
    analyze_prs (fun _ => none) none
      (⟨some 1, some "T", none, [], some "open", none, some "2024-01-01", 0, []⟩ :: [])
      [] 15 = .error .indexError) :=
  ⟨by decide, analyze_prs_contract_amended (fun _ => none) none
    ⟨some 1, some "T", none, [], some "open", none, some "2024-01-01", 0, []⟩
    [] ["Skills"] 15 (by decide)⟩

/-! ### Claim C8 -/

/-- C8 counterexample: a record whose only file is `poetry.lock` has no
surviving files at all, yet the `Files changed` summary line reports one
file and its +5 added lines — the count and totals are computed over the
raw file list, before the exclusion filter. -/
theorem files_changed_counts_cex :
    informativeFiles [⟨"poetry.lock", "modified", 5, 0, none⟩] = [] ∧
    pyInStr ("Files changed (1): +5 -0")
      (compress_pr_data ⟨some 2, some "L", none, [], some "open", none,
        some "2024-01-01", 0, [⟨"poetry.lock", "modified", 5, 0, none⟩]⟩) = true := by
  constructor
  · rfl
  · rfl

/-- C8 (amended): when a record has file changes, the compressed text is
the base block followed by a `Files changed` summary line whose file count
and aggregate added/removed totals are computed over the FULL file list,
before the exclude-path-substring filter; only the subsequent listing,
technology tags, overflow marker and patch excerpts are restricted to the
surviving files. -/
theorem files_changed_line_amended (r : Record) (hne : r.files ≠ []) :
    ∃ rest, compress_pr_data r =
      baseCompressed r ++
        (filesChangedLine r.files.length
          ((r.files.map (fun f => f.additions)).sum)
          ((r.files.map (fun f => f.deletions)).sum) ++ rest) := by
  have hfe : r.files.isEmpty = false := by
    cases hr : r.files with
    | nil => exact absurd hr hne
    | cons a l => rfl
  refine ⟨(let techs := technologiesOf r.files
      if techs.isEmpty then "" else "\nTechnologies: " ++ pyJoin ", " techs) ++
      ("\n" ++ pyJoin "\n" (((informativeFiles r.files).take 10).map fileDetailLine) ++
      ((if 10 < (informativeFiles r.files).length then
          "\n  ... and " ++ toString ((informativeFiles r.files).length - 10) ++ " more files"
        else "") ++
      keyChangesSection r.files)), ?_⟩
  unfold compress_pr_data filesSection
  rw [hfe]
  simp only [Bool.false_eq_true, if_false, String.append_assoc]

/-- Witness for C8 (amended) at a concrete record. -/
theorem files_changed_line_amended_witness :
    ((⟨some 3, some "W", none, [], some "open", none, some "2024-01-01", 0,
        [⟨"a.py", "added", 1, 2, none⟩]⟩ : Record).files ≠ []) ∧
    (∃ rest, compress_pr_data
        ⟨some 3, some "W", none, [], some "open", none, some "2024-01-01", 0,
          [⟨"a.py", "added", 1, 2, none⟩]⟩ =
      baseCompressed
        ⟨some 3, some "W", none, [], some "open", none, some "2024-01-01", 0,
          [⟨"a.py", "added", 1, 2, none⟩]⟩ ++
        (filesChangedLine
          (⟨some 3, some "W", none, [], some "open", none, some "2024-01-01", 0,
            [⟨"a.py", "added", 1, 2, none⟩]⟩ : Record).files.length
          (((⟨some 3, some "W", none, [], some "open", none, some "2024-01-01", 0,
            [⟨"a.py", "added", 1, 2, none⟩]⟩ : Record).files.map
              (fun f => f.additions)).sum)
          (((⟨some 3, some "W", none, [], some "open", none, some "2024-01-01", 0,
            [⟨"a.py", "added", 1, 2, none⟩]⟩ : Record).files.map
              (fun f => f.deletions)).sum) ++
          rest)) :=
  ⟨by decide, files_changed_line_amended
    ⟨some 3, some "W", none, [], some "open", none, some "2024-01-01", 0,
      [⟨"a.py", "added", 1, 2, none⟩]⟩ (by decide)⟩

/-! ### Claim C7 -/

theorem string_mk_data (s : String) : (⟨s.data⟩ : String) = s := rfl

theorem isPrefixL_append_self (p t : List Char) : isPrefixL p (p ++ t) = true := by
  induction p with
  | nil => rfl
  | cons a as ih => simp [isPrefixL, ih]

/-- A failed `json`-prefix test stays failed after appending a closing
fence: no prefix of `json` is continued by a backtick. -/
theorem not_prefix_json_append (sd : List Char)
    (h : isPrefixL (("json").data) sd = false) :
    isPrefixL (("json").data) (sd ++ ['`', '`', '`']) = false := by
  rcases sd with _ | ⟨a, _ | ⟨b, _ | ⟨d, _ | ⟨e, rest⟩⟩⟩⟩
  · rfl
  · have h2 : isPrefixL ['s', 'o', 'n'] ['`', '`', '`'] = false := rfl
    simp [isPrefixL, h2]
  · have h2 : isPrefixL ['o', 'n'] ['`', '`', '`'] = false := rfl
    simp [isPrefixL, h2]
  · have h2 : isPrefixL ['n'] ['`', '`', '`'] = false := rfl
    simp [isPrefixL, h2]
  · simp only [show (("json").data) = ['j', 's', 'o', 'n'] from rfl, isPrefixL,
      List.cons_append, Bool.and_eq_false_iff] at h ⊢
    rcases h with h | h
    · exact Or.inl h
    · rcases h with h | h
      · exact Or.inr (Or.inl h)
      · rcases h with h | h
        · exact Or.inr (Or.inr (Or.inl h))
        · rcases h with h | h
          · exact Or.inr (Or.inr (Or.inr (Or.inl h)))
          · simp [isPrefixL] at h

/-- `str.strip()` is the identity on a string whose first and last
characters are not whitespace. -/
theorem pyStrip_of_edges (X : String) (c0 cl : Char) (t0 r0 : List Char)
    (h1 : X.data = c0 :: t0) (h2 : X.data.reverse = cl :: r0)
    (hc0 : isPySpace c0 = false) (hcl : isPySpace cl = false) :
    pyStrip X = X := by
  have e1 : List.dropWhile isPySpace X.data = X.data := by
    rw [h1, List.dropWhile_cons, hc0]
    simp
  have e2 : List.dropWhile isPySpace X.data.reverse = X.data.reverse := by
    rw [h2, List.dropWhile_cons, hcl]
    simp
  unfold pyStrip pyStripL
  rw [e1, e2, List.reverse_reverse]

/-- C7 counterexample: a reply whose fence carries the language tag `js`
encloses perfectly valid JSON, yet the parse step fails: only the exact
token "```json" (or a bare fence) is stripped, so the tag text `js`
remains and `json.loads` rejects it. -/
theorem parse_fenced_language_tag_cex :
    json_loads ("[1, 2]") = some (.arr [.num 1, .num 2]) ∧
    parse_llm_reply ("```js\n[1, 2]\n```") = none := by
  constructor
  · rfl
  · rfl

/-- C7 (amended): the parse step strips fence markers and recovers the
enclosed JSON for every combination of an absent opening token, a bare
"```" opening token, or a "```json" opening token (the only language
annotation the code recognises), independently combined with an absent or
present closing fence.  The side conditions on the enclosed text `s`
(non-empty, stripped, not starting or ending with a backtick, not starting
with the letters `json`) hold for every serialized JSON document.  For any
other language tag the fence is only partially stripped and parsing fails,
as the counterexample shows. -/
theorem parse_llm_fenced_json_amended (s : String) (v : JVal)
    (h1 : json_loads s = some v) (hne : s ≠ "")
    (hh : s.data.head?.all (fun ch => !isPySpace ch && !(ch == '`')) = true)
    (hl : s.data.getLast?.all (fun ch => !isPySpace ch && !(ch == '`')) = true)
    (hj : isPrefixL (("json").data) s.data = false) :
    ∀ o ∈ ["", "```", "```json"], ∀ c ∈ ["", "```"],
      parse_llm_reply (o ++ s ++ c) = some v := by
  have hjd : ("json").data = ['j', 's', 'o', 'n'] := rfl
  have hbt : ("```").data = ['`', '`', '`'] := rfl
  have h7 : ("```json").data = ['`', '`', '`', 'j', 's', 'o', 'n'] := rfl
  have hdne : s.data ≠ [] := fun h => hne (String.ext h)
  obtain ⟨c0, t0, hs⟩ := List.exists_cons_of_ne_nil hdne
  have hrne : s.data.reverse ≠ [] := by simp [hdne]
  obtain ⟨cl, r0, hrev⟩ := List.exists_cons_of_ne_nil hrne
  have hh2 : isPySpace c0 = false ∧ (c0 == '`') = false := by
    rw [hs] at hh
    simpa using hh
  have hl2 : isPySpace cl = false ∧ (cl == '`') = false := by
    rw [List.getLast?_eq_head?_reverse, hrev] at hl
    simpa using hl
  have hb0 : ('`' == c0) = false := by
    have h := hh2.2
    rw [beq_eq_false_iff_ne] at h ⊢
    exact fun he => h he.symm
  have hbl : ('`' == cl) = false := by
    have h := hl2.2
    rw [beq_eq_false_iff_ne] at h ⊢
    exact fun he => h he.symm
  rw [hjd] at hj
  -- the enclosed text passes none of the three fence tests
  have noSw : ∀ (Z : String) (u : List Char), Z.data = c0 :: u →
      pyStartsWith Z ("```json") = false ∧ pyStartsWith Z ("```") = false := by
    intro Z u hZ
    constructor
    · unfold pyStartsWith
      rw [hZ, h7]
      simp [isPrefixL, hb0]
    · unfold pyStartsWith
      rw [hZ, hbt]
      simp [isPrefixL, hb0]
  have hsw := noSw s t0 hs
  have hew : pyEndsWith s ("```") = false := by
    unfold pyEndsWith
    rw [hrev, show ("```").data.reverse = ['`', '`', '`'] from rfl]
    simp [isPrefixL, hbl]
  have hstrip : pyStrip s = s := pyStrip_of_edges s c0 cl t0 r0 hs hrev hh2.1 hl2.1
  have hsf : stripFences s = s := by
    unfold stripFences
    simp only [hsw.1, hsw.2, hew, Bool.false_eq_true, if_false]
  -- a closing fence is detected and removed exactly
  have tailEw : ∀ Z : String, Z.data = s.data ++ ['`', '`', '`'] →
      pyEndsWith Z ("```") = true := by
    intro Z hZ
    unfold pyEndsWith
    rw [hZ, show ("```").data.reverse = ['`', '`', '`'] from rfl, List.reverse_append]
    simp [isPrefixL]
  have tailDrop : ∀ Z : String, Z.data = s.data ++ ['`', '`', '`'] →
      pyDropRight Z 3 = s := by
    intro Z hZ
    unfold pyDropRight
    rw [hZ]
    have hln : (s.data ++ ['`', '`', '`']).length - 3 = s.data.length := by simp
    rw [hln, List.take_left]
  intro o ho c hc
  fin_cases ho <;> fin_cases hc
  · -- o = "", c = ""
    have hXeq : ("" ++ s ++ "") = s := String.ext (by simp)
    rw [hXeq]
    unfold parse_llm_reply
    rw [hstrip, hsf, hstrip]
    exact h1
  · -- o = "", c = "```"
    have hXeq : ("" ++ s ++ "```") = s ++ "```" := String.ext (by simp)
    rw [hXeq]
    have hXd : (s ++ "```").data = s.data ++ ['`', '`', '`'] := by
      rw [String.data_append, hbt]
    have hXd2 : (s ++ "```").data = c0 :: (t0 ++ ['`', '`', '`']) := by
      rw [hXd, hs]
      rfl
    have hXr : (s ++ "```").data.reverse = '`' :: ('`' :: '`' :: s.data.reverse) := by
      rw [hXd]
      simp
    have hst : pyStrip (s ++ "```") = s ++ "```" :=
      pyStrip_of_edges _ c0 '`' _ _ hXd2 hXr hh2.1 rfl
    have hswX := noSw (s ++ "```") _ hXd2
    have hsfX : stripFences (s ++ "```") = s := by
      unfold stripFences
      simp only [hswX.1, hswX.2, tailEw _ hXd, Bool.false_eq_true, if_false, if_true,
        tailDrop _ hXd]
    unfold parse_llm_reply
    rw [hst, hsfX, hstrip]
    exact h1
  · -- o = "```", c = ""
    have hXeq : ("```" ++ s ++ "") = "```" ++ s := String.ext (by simp)
    rw [hXeq]
    have hXd : ("```" ++ s).data = '`' :: '`' :: '`' :: s.data := by
      rw [String.data_append, hbt]
      rfl
    have hXr : ("```" ++ s).data.reverse = cl :: (r0 ++ ['`', '`', '`']) := by
      rw [hXd]
      simp [hrev]
    have hst : pyStrip ("```" ++ s) = "```" ++ s :=
      pyStrip_of_edges _ '`' cl _ _ hXd hXr rfl hl2.1
    have hsw7X : pyStartsWith ("```" ++ s) ("```json") = false := by
      unfold pyStartsWith
      rw [hXd, h7]
      simpa [isPrefixL] using hj
    have hsw3X : pyStartsWith ("```" ++ s) ("```") = true := by
      unfold pyStartsWith
      rw [hXd, hbt]
      simp [isPrefixL]
    have hdrop3 : pyDropL ("```" ++ s) 3 = s := by
      unfold pyDropL
      rw [hXd]
      exact string_mk_data s
    have hsfX : stripFences ("```" ++ s) = s := by
      unfold stripFences
      simp only [hsw7X, hsw3X, Bool.false_eq_true, if_false, if_true, hdrop3,
        hew, hsw.2]
    unfold parse_llm_reply
    rw [hst, hsfX, hstrip]
    exact h1
  · -- o = "```", c = "```"
    have hXd : ("```" ++ s ++ "```").data =
        '`' :: '`' :: '`' :: (s.data ++ ['`', '`', '`']) := by
      simp [String.data_append]
    have hXr : ("```" ++ s ++ "```").data.reverse =
        '`' :: '`' :: '`' :: (s.data.reverse ++ ['`', '`', '`']) := by
      rw [hXd]
      simp
    have hst : pyStrip ("```" ++ s ++ "```") = "```" ++ s ++ "```" :=
      pyStrip_of_edges _ '`' '`' _ _ hXd hXr rfl rfl
    have hsw7X : pyStartsWith ("```" ++ s ++ "```") ("```json") = false := by
      unfold pyStartsWith
      rw [hXd, h7]
      simpa [isPrefixL] using not_prefix_json_append s.data (by rw [hjd]; exact hj)
    have hsw3X : pyStartsWith ("```" ++ s ++ "```") ("```") = true := by
      unfold pyStartsWith
      rw [hXd, hbt]
      simp [isPrefixL]
    have hZd : (pyDropL ("```" ++ s ++ "```") 3).data = s.data ++ ['`', '`', '`'] := by
      unfold pyDropL
      rw [hXd]
      rfl
    have hsfX : stripFences ("```" ++ s ++ "```") = s := by
      unfold stripFences
      simp only [hsw7X, hsw3X, Bool.false_eq_true, if_false, if_true,
        tailEw _ hZd, tailDrop _ hZd]
    unfold parse_llm_reply
    rw [hst, hsfX, hstrip]
    exact h1
  · -- o = "```json", c = ""
    have hXeq : ("```json" ++ s ++ "") = "```json" ++ s := String.ext (by simp)
    rw [hXeq]
    have hXd : ("```json" ++ s).data =
        '`' :: '`' :: '`' :: 'j' :: 's' :: 'o' :: 'n' :: s.data := by
      rw [String.data_append, h7]
      rfl
    have hXr : ("```json" ++ s).data.reverse =
        cl :: (r0 ++ ['n', 'o', 's', 'j', '`', '`', '`']) := by
      rw [hXd]
      simp [hrev]
    have hst : pyStrip ("```json" ++ s) = "```json" ++ s :=
      pyStrip_of_edges _ '`' cl _ _ hXd hXr rfl hl2.1
    have hsw7X : pyStartsWith ("```json" ++ s) ("```json") = true := by
      unfold pyStartsWith
      rw [hXd, h7]
      simp [isPrefixL]
    have hdrop7 : pyDropL ("```json" ++ s) 7 = s := by
      unfold pyDropL
      rw [hXd]
      exact string_mk_data s
    have hsfX : stripFences ("```json" ++ s) = s := by
      unfold stripFences
      simp only [hsw7X, Bool.false_eq_true, if_false, if_true, hdrop7, hsw.2, hew]
    unfold parse_llm_reply
    rw [hst, hsfX, hstrip]
    exact h1
  · -- o = "```json", c = "```"
    have hXd : ("```json" ++ s ++ "```").data =
        '`' :: '`' :: '`' :: 'j' :: 's' :: 'o' :: 'n' :: (s.data ++ ['`', '`', '`']) := by
      simp [String.data_append]
    have hXr : ("```json" ++ s ++ "```").data.reverse =
        '`' :: '`' :: '`' :: (s.data.reverse ++ ['n', 'o', 's', 'j', '`', '`', '`']) := by
      rw [hXd]
      simp
    have hst : pyStrip ("```json" ++ s ++ "```") = "```json" ++ s ++ "```" :=
      pyStrip_of_edges _ '`' '`' _ _ hXd hXr rfl rfl
    have hsw7X : pyStartsWith ("```json" ++ s ++ "```") ("```json") = true := by
      unfold pyStartsWith
      rw [hXd, h7]
      simp [isPrefixL]
    have hZd : (pyDropL ("```json" ++ s ++ "```") 7).data = s.data ++ ['`', '`', '`'] := by
      unfold pyDropL
      rw [hXd]
      rfl
    have hZd2 : (pyDropL ("```json" ++ s ++ "```") 7).data = c0 :: (t0 ++ ['`', '`', '`']) := by
      rw [hZd, hs]
      rfl
    have hswZ := noSw _ _ hZd2
    have hsfX : stripFences ("```json" ++ s ++ "```") = s := by
      unfold stripFences
      simp only [hsw7X, hswZ.2, Bool.false_eq_true, if_false, if_true,
        tailEw _ hZd, tailDrop _ hZd]
    unfold parse_llm_reply
    rw [hst, hsfX, hstrip]
    exact h1

/-- Witness for C7 (amended): the payload `[1, 2]` survives all six fence
combinations. -/
theorem parse_llm_fenced_json_amended_witness :
    json_loads ("[1, 2]") = some (.arr [.num 1, .num 2]) ∧
    ∀ o ∈ ["", "```", "```json"], ∀ c ∈ ["", "```"],
      parse_llm_reply (o ++ "[1, 2]" ++ c) = some (.arr [.num 1, .num 2]) :=
  ⟨rfl, parse_llm_fenced_json_amended "[1, 2]" (.arr [.num 1, .num 2]) rfl
    (by decide) (by rfl) (by rfl) (by rfl)⟩

/-- Witness for C5 at the spec's end-to-end scenario shape: 7 records in
batches of 3 give batches of sizes 3, 3, 1. -/
theorem create_batches_spec_witness :
    0 < 3 ∧
    ∃ bs : List (List Nat),
      create_batches [1, 2, 3, 4, 5, 6, 7] 3 = .ok bs ∧
      bs.length = (([1, 2, 3, 4, 5, 6, 7] : List Nat).length + 3 - 1) / 3 ∧
      (∀ i (h : i < bs.length),
        bs[i] = (([1, 2, 3, 4, 5, 6, 7] : List Nat).drop (i * 3)).take 3) ∧
      (∀ i (h : i < bs.length), i + 1 < bs.length → bs[i].length = 3) ∧
      (([1, 2, 3, 4, 5, 6, 7] : List Nat) ≠ [] → ∀ h : bs.length - 1 < bs.length,
        bs[bs.length - 1].length =
          if ([1, 2, 3, 4, 5, 6, 7] : List Nat).length % 3 = 0 then 3
          else ([1, 2, 3, 4, 5, 6, 7] : List Nat).length % 3) ∧
      bs.flatten = [1, 2, 3, 4, 5, 6, 7] ∧
      (([1, 2, 3, 4, 5, 6, 7] : List Nat) = [] → bs = []) :=
  ⟨by decide, create_batches_spec [1, 2, 3, 4, 5, 6, 7] 3 (by decide)⟩

/-! ### Claims C1, C3, C6: aggregation machinery -/

/-- A list of JSON values that are all strings is the string-map of its
string contents. -/
theorem all_str_eq (xs : List JVal)
    (h : ∀ x ∈ xs, ∃ s, x = JVal.str s) :
    xs = (xs.filterMap (fun x => match x with
      | JVal.str s => some s
      | _ => none)).map JVal.str := by
  induction xs with
  | nil => rfl
  | cons x rest ih =>
      obtain ⟨s, rfl⟩ := h x (List.mem_cons_self x rest)
      have ih2 := ih (fun y hy => h y (List.mem_cons_of_mem _ hy))
      show JVal.str s :: rest = JVal.str s ::
        ((rest.filterMap (fun x => match x with
          | JVal.str s => some s
          | _ => none)).map JVal.str)
      exact congrArg _ ih2

/-- Invariant of the fallback merge's working dict: its keys are exactly
the requested fields, and each requested field's current list contains
exactly the string values of the reference list `M f` (as a set). -/
def DictInv (fields : List String) (d : List (String × List JVal))
    (M : String → List String) : Prop :=
  (∀ k, (alGet d k).isSome ↔ k ∈ fields) ∧
  ∀ f ∈ fields, ∃ cur, alGet d f = some cur ∧
    ∀ x, x ∈ cur ↔ ∃ t, x = JVal.str t ∧ t ∈ M f

theorem DictInv_congr (fields : List String) (d : List (String × List JVal))
    (M M2 : String → List String)
    (h : ∀ f ∈ fields, ∀ t, t ∈ M f ↔ t ∈ M2 f) :
    DictInv fields d M → DictInv fields d M2 := by
  rintro ⟨hk, hP⟩
  refine ⟨hk, fun f hf => ?_⟩
  obtain ⟨cur, hcur, hmem⟩ := hP f hf
  refine ⟨cur, hcur, fun x => ?_⟩
  rw [hmem x]
  constructor
  · rintro ⟨t, rfl, ht⟩
    exact ⟨t, rfl, (h f hf t).mp ht⟩
  · rintro ⟨t, rfl, ht⟩
    exact ⟨t, rfl, (h f hf t).mpr ht⟩

/-- Unpack a well-formed batch result for the merge loop: its
`.get("fields", {})` succeeds, and each requested field read from it with
default `[]` yields exactly that batch's string entries. -/
theorem wf_batch_fields (fields : List String) (r : JVal)
    (hwf : isWFBatchResult fields r = true) :
    ∃ rf, pyDictGet r ("fields") (.obj []) = pure rf ∧
      ∀ f ∈ fields, pyDictGet rf f (.arr []) =
        pure (.arr ((batchItems r f).map JVal.str)) := by
  cases r with
  | obj kvs =>
      unfold isWFBatchResult at hwf
      rw [Bool.and_eq_true] at hwf
      cases hfv : alGet kvs "fields" with
      | none =>
          refine ⟨.obj [], ?_, ?_⟩
          · simp only [pyDictGet, hfv]
            rfl
          · intro f hf
            have hbi : batchItems (JVal.obj kvs) f = [] := by
              simp only [batchItems, hfv]
            rw [hbi]
            rfl
      | some fv =>
          rw [hfv] at hwf
          cases fv with
          | obj fkvs =>
              refine ⟨.obj fkvs, ?_, ?_⟩
              · simp only [pyDictGet, hfv]
                rfl
              · intro f hf
                have hone : (match alGet fkvs f with
                    | none => true
                    | some (.arr xs) =>
                        xs.all (fun x => match x with | JVal.str _ => true | _ => false)
                    | some _ => false) = true :=
                  List.all_eq_true.mp hwf.1 f hf
                cases hgf : alGet fkvs f with
                | none =>
                    have hbi : batchItems (JVal.obj kvs) f = [] := by
                      simp only [batchItems, hfv, hgf]
                    rw [hbi]
                    simp only [pyDictGet, hgf]
                    rfl
                | some fvv =>
                    rw [hgf] at hone
                    cases fvv with
                    | arr xs =>
                        have hall : xs.all (fun x =>
                            match x with | JVal.str _ => true | _ => false) = true := hone
                        have hstr : ∀ x ∈ xs, ∃ s, x = JVal.str s := by
                          intro x hx
                          have hx2 := List.all_eq_true.mp hall x hx
                          cases x <;> simp_all
                        have hbi : batchItems (JVal.obj kvs) f =
                            xs.filterMap (fun x => match x with
                              | JVal.str s => some s
                              | _ => none) := by
                          simp only [batchItems, hfv, hgf]
                        rw [hbi, ← all_str_eq xs hstr]
                        simp only [pyDictGet, hgf]
                        rfl
                    | null => simp at hone
                    | bool b => simp at hone
                    | num n => simp at hone
                    | str s => simp at hone
                    | obj o => simp at hone
          | null => simp at hwf
          | bool b => simp at hwf
          | num n => simp at hwf
          | str s => simp at hwf
          | arr xs => simp at hwf
  | null => simp [isWFBatchResult] at hwf
  | bool b => simp [isWFBatchResult] at hwf
  | num n => simp [isWFBatchResult] at hwf
  | str s => simp [isWFBatchResult] at hwf
  | arr xs => simp [isWFBatchResult] at hwf

/-- One merge-loop iteration, under the invariant. -/
theorem mergeFieldStep_eq (rf : JVal) (d : List (String × List JVal)) (f : String)
    (items : List String) (cur : List JVal)
    (hI : pyDictGet rf f (.arr []) = pure (.arr (items.map JVal.str)))
    (hcur : alGet d f = some cur) :
    mergeFieldStep rf d f = pure (alSet d f (cur ++ items.map JVal.str)) := by
  unfold mergeFieldStep
  rw [hI, hcur]
  rfl

/-- The inner merge loop preserves the invariant, extending the fields it
visits by the batch's entries. -/
theorem merge_inner_fold (fields : List String) (rf : JVal) (I : String → List String)
    (hI : ∀ f ∈ fields, pyDictGet rf f (.arr []) = pure (.arr ((I f).map JVal.str))) :
    ∀ (fs : List String), (∀ f ∈ fs, f ∈ fields) →
      ∀ (d : List (String × List JVal)) (M : String → List String),
        DictInv fields d M →
        ∃ d2, fs.foldlM (mergeFieldStep rf) d = pure d2 ∧
          DictInv fields d2 (fun g => if g ∈ fs then M g ++ I g else M g) := by
  intro fs
  induction fs with
  | nil =>
      intro _ d M hM
      refine ⟨d, rfl, ?_⟩
      refine DictInv_congr fields d M _ ?_ hM
      intro f _ t
      simp
  | cons f fs ih =>
      intro hsub d M hM
      have hff : f ∈ fields := hsub f (List.mem_cons_self f fs)
      obtain ⟨hkeys, hP⟩ := hM
      obtain ⟨cur, hcur, hmem⟩ := hP f hff
      have hstep := mergeFieldStep_eq rf d f (I f) cur (hI f hff) hcur
      have hM1 : DictInv fields (alSet d f (cur ++ (I f).map JVal.str))
          (fun g => if g = f then M g ++ I g else M g) := by
        constructor
        · intro k
          rw [alGet_alSet]
          by_cases hk : f = k
          · subst hk
            simp [hff]
          · simp [hk, hkeys k]
        · intro g hg
          by_cases hgf : g = f
          · subst hgf
            refine ⟨cur ++ (I g).map JVal.str, ?_, ?_⟩
            · rw [alGet_alSet]
              simp
            · intro x
              have hiff : ∀ t : String,
                  (t ∈ if g = g then M g ++ I g else M g) ↔ (t ∈ M g ∨ t ∈ I g) := by
                intro t
                rw [if_pos rfl, List.mem_append]
              rw [List.mem_append, hmem x]
              constructor
              · rintro (⟨t, rfl, ht⟩ | hx)
                · exact ⟨t, rfl, (hiff t).mpr (Or.inl ht)⟩
                · obtain ⟨t, ht, rfl⟩ := List.mem_map.mp hx
                  exact ⟨t, rfl, (hiff t).mpr (Or.inr ht)⟩
              · rintro ⟨t, rfl, ht⟩
                rcases (hiff t).mp ht with ht | ht
                · exact Or.inl ⟨t, rfl, ht⟩
                · exact Or.inr (List.mem_map_of_mem _ ht)
          · obtain ⟨cur2, hcur2, hmem2⟩ := hP g hg
            refine ⟨cur2, ?_, ?_⟩
            · rw [alGet_alSet, if_neg (fun he => hgf he.symm)]
              exact hcur2
            · intro x
              rw [hmem2 x]
              simp [hgf]
      obtain ⟨d2, hfold, hinv⟩ := ih (fun g hg => hsub g (List.mem_cons_of_mem f hg)) _ _ hM1
      refine ⟨d2, ?_, ?_⟩
      · rw [List.foldlM_cons, hstep, pure_bind]
        exact hfold
      · refine DictInv_congr fields d2 _ _ ?_ hinv
        intro g _ t
        by_cases h1 : g = f
        · subst h1
          by_cases h2 : g ∈ fs
          · simp only [h2, if_true, if_pos rfl, List.mem_cons, true_or, or_true,
              List.mem_append]
            tauto
          · simp [h2, List.mem_append]
        · by_cases h2 : g ∈ fs
          · simp [h1, h2, List.mem_append]
          · simp [h1, h2, List.mem_append]

/-- The outer merge loop preserves the invariant, extending every
requested field by all the batches' entries in input order. -/
theorem merge_outer_fold (fields : List String) :
    ∀ (rs : List JVal), (∀ r ∈ rs, isWFBatchResult fields r = true) →
      ∀ (d : List (String × List JVal)) (M : String → List String),
        DictInv fields d M →
        ∃ d2, rs.foldlM (mergeBatchStep fields) d = pure d2 ∧
          DictInv fields d2 (fun g => M g ++ specCollected rs g) := by
  intro rs
  induction rs with
  | nil =>
      intro _ d M hM
      refine ⟨d, rfl, ?_⟩
      have he : (fun g => M g ++ specCollected [] g) = M := by
        funext g
        simp [specCollected]
      rw [he]
      exact hM
  | cons r rs ih =>
      intro hwf d M hM
      obtain ⟨rf, hrf, hI⟩ := wf_batch_fields fields r (hwf r (List.mem_cons_self r rs))
      obtain ⟨d1, hfold1, hinv1⟩ := merge_inner_fold fields rf (fun g => batchItems r g)
        hI fields (fun g hg => hg) d M hM
      have hstep : mergeBatchStep fields d r = pure d1 := by
        unfold mergeBatchStep
        rw [hrf, pure_bind]
        exact hfold1
      have hinv1b : DictInv fields d1 (fun g => M g ++ batchItems r g) := by
        refine DictInv_congr fields d1 _ _ ?_ hinv1
        intro g hg t
        simp [hg]
      obtain ⟨d2, hfold2, hinv2⟩ := ih (fun x hx => hwf x (List.mem_cons_of_mem r hx)) d1 _ hinv1b
      refine ⟨d2, ?_, ?_⟩
      · rw [List.foldlM_cons, hstep, pure_bind]
        exact hfold2
      · have he : (fun g => (M g ++ batchItems r g) ++ specCollected rs g)
            = (fun g => M g ++ specCollected (r :: rs) g) := by
          funext g
          rw [List.append_assoc]
          have hsc : specCollected (r :: rs) g = batchItems r g ++ specCollected rs g := by
            simp [specCollected]
          rw [hsc]
        rw [he] at hinv2
        exact hinv2

/-- The deduplication loop succeeds on all-string lists, preserves each
field's contents as a set, and leaves every visited field duplicate-free. -/
theorem dedup_fold_char (fields : List String) :
    ∀ (fs : List String), (∀ f ∈ fs, f ∈ fields) →
      ∀ (d : List (String × List JVal)) (M : String → List String) (S : String → Prop),
        ((∀ k, (alGet d k).isSome ↔ k ∈ fields) ∧
          ∀ f ∈ fields, ∃ cur, alGet d f = some cur ∧
            (∀ x, x ∈ cur ↔ ∃ t, x = JVal.str t ∧ t ∈ M f) ∧ (S f → cur.Nodup)) →
        ∃ d2, fs.foldlM dedupFieldStep d = pure d2 ∧
          (∀ k, (alGet d2 k).isSome ↔ k ∈ fields) ∧
          ∀ f ∈ fields, ∃ cur, alGet d2 f = some cur ∧
            (∀ x, x ∈ cur ↔ ∃ t, x = JVal.str t ∧ t ∈ M f) ∧
            ((S f ∨ f ∈ fs) → cur.Nodup) := by
  intro fs
  induction fs with
  | nil =>
      rintro _ d M S ⟨hk, hP⟩
      refine ⟨d, rfl, hk, ?_⟩
      intro f hf
      obtain ⟨cur, h1, h2, h3⟩ := hP f hf
      refine ⟨cur, h1, h2, ?_⟩
      rintro (hS | hmem)
      · exact h3 hS
      · exact absurd hmem (List.not_mem_nil f)
  | cons f fs ih =>
      rintro hsub d M S ⟨hk, hP⟩
      have hff := hsub f (List.mem_cons_self f fs)
      obtain ⟨cur, hcur, hmem, _⟩ := hP f hff
      have hall : cur.all pyHashable = true := by
        rw [List.all_eq_true]
        intro x hx
        obtain ⟨t, rfl, _⟩ := (hmem x).mp hx
        rfl
      have hps : pyListSet cur = Except.ok cur.dedup := by
        unfold pyListSet
        rw [if_pos hall]
      have hstep : dedupFieldStep d f = pure (alSet d f cur.dedup) := by
        simp only [dedupFieldStep, hcur]
        rw [pure_bind, hps]
        rfl
      have hinv1 : (∀ k, (alGet (alSet d f cur.dedup) k).isSome ↔ k ∈ fields) ∧
          ∀ g ∈ fields, ∃ cur2, alGet (alSet d f cur.dedup) g = some cur2 ∧
            (∀ x, x ∈ cur2 ↔ ∃ t, x = JVal.str t ∧ t ∈ M g) ∧
            ((S g ∨ g = f) → cur2.Nodup) := by
        constructor
        · intro k
          rw [alGet_alSet]
          by_cases hkf : f = k
          · subst hkf
            simp [hff]
          · simp [hkf, hk k]
        · intro g hg
          by_cases hgf : g = f
          · subst hgf
            refine ⟨cur.dedup, ?_, ?_, ?_⟩
            · rw [alGet_alSet]
              simp
            · intro x
              rw [List.mem_dedup]
              exact hmem x
            · intro _
              exact List.nodup_dedup cur
          · obtain ⟨cur2, h1, h2, h3⟩ := hP g hg
            refine ⟨cur2, ?_, h2, ?_⟩
            · rw [alGet_alSet, if_neg (fun he => hgf he.symm)]
              exact h1
            · rintro (hS | he)
              · exact h3 hS
              · exact absurd he hgf
      obtain ⟨d2, hfold, hk2, hP2⟩ := ih (fun g hg => hsub g (List.mem_cons_of_mem f hg))
        (alSet d f cur.dedup) M (fun g => S g ∨ g = f) hinv1
      refine ⟨d2, ?_, hk2, ?_⟩
      · rw [List.foldlM_cons, hstep, pure_bind]
        exact hfold
      · intro g hg
        obtain ⟨cur2, h1, h2, h3⟩ := hP2 g hg
        refine ⟨cur2, h1, h2, ?_⟩
        rintro (hS | hmem2)
        · exact h3 (Or.inl (Or.inl hS))
        · rw [List.mem_cons] at hmem2
          rcases hmem2 with rfl | hmem2
          · exact h3 (Or.inl (Or.inr rfl))
          · exact h3 (Or.inr hmem2)

/-- A well-formed batch result's `.get("partial_summary", "")` yields its
partial summary string. -/
theorem wf_batch_summary (fields : List String) (r : JVal)
    (hwf : isWFBatchResult fields r = true) :
    pyDictGet r ("partial_summary") (.str "") = pure (.str (batchSummary r)) := by
  cases r with
  | obj kvs =>
      unfold isWFBatchResult at hwf
      rw [Bool.and_eq_true] at hwf
      cases hps : alGet kvs "partial_summary" with
      | none =>
          have hbs : batchSummary (JVal.obj kvs) = "" := by
            simp only [batchSummary, hps]
          rw [hbs]
          simp only [pyDictGet, hps]
          rfl
      | some v =>
          have hwf2 := hwf.2
          rw [hps] at hwf2
          cases v with
          | str s =>
              have hbs : batchSummary (JVal.obj kvs) = s := by
                simp only [batchSummary, hps]
              rw [hbs]
              simp only [pyDictGet, hps]
              rfl
          | null => simp at hwf2
          | bool b => simp at hwf2
          | num n => simp at hwf2
          | arr xs => simp at hwf2
          | obj o => simp at hwf2
  | null => simp [isWFBatchResult] at hwf
  | bool b => simp [isWFBatchResult] at hwf
  | num n => simp [isWFBatchResult] at hwf
  | str s => simp [isWFBatchResult] at hwf
  | arr xs => simp [isWFBatchResult] at hwf

/-- The summary comprehension collects exactly the truthy partial
summaries, in batch order. -/
theorem summary_fold_char (fields : List String) :
    ∀ (rs : List JVal), (∀ r ∈ rs, isWFBatchResult fields r = true) →
      ∀ acc : List JVal,
        rs.foldlM summaryStep acc =
          pure (acc ++ ((rs.map batchSummary).filter (fun s => s ≠ "")).map JVal.str) := by
  intro rs
  induction rs with
  | nil =>
      intro _ acc
      simp
  | cons r rs ih =>
      intro hwf acc
      have hget := wf_batch_summary fields r (hwf r (List.mem_cons_self r rs))
      have hstep : summaryStep acc r =
          pure (if pyTruthy (.str (batchSummary r)) then acc ++ [JVal.str (batchSummary r)]
            else acc) := by
        unfold summaryStep
        rw [hget]
        rfl
      rw [List.foldlM_cons, hstep, pure_bind,
        ih (fun x hx => hwf x (List.mem_cons_of_mem r hx))]
      by_cases hbs : batchSummary r = ""
      · have ht : pyTruthy (.str (batchSummary r)) = false := by
          simp [pyTruthy, hbs]
        rw [ht]
        simp [hbs]
      · have ht : pyTruthy (.str (batchSummary r)) = true := by
          simp [pyTruthy, hbs]
        rw [ht]
        simp [hbs]

/-- Extracting the strings back out of a string-array succeeds. -/
theorem mapM_str_ok (l : List String) :
    (l.map JVal.str).mapM (fun t => match t with
      | JVal.str s => Except.ok s
      | _ => Except.error PyErr.typeError) = pure l := by
  induction l with
  | nil => rfl
  | cons s rest ih =>
      rw [List.map_cons, List.mapM_cons, ih]
      rfl

/-- Full characterization of `_manual_aggregation` on well-formed batch
results: it succeeds, its `fields` member has exactly the requested keys,
each key holds a duplicate-free list with exactly the collected entries as
contents, and the summary is the spec's summary. -/
theorem manual_aggregation_char (brs : List JVal) (fields : List String)
    (hwf : ∀ r ∈ brs, isWFBatchResult fields r = true) :
    ∃ fobj : List (String × List JVal),
      manual_aggregation brs fields = .ok (.obj
        [("fields", .obj (fobj.map (fun kv => (kv.1, JVal.arr kv.2)))),
         ("summary", .str (specSummary brs))]) ∧
      (∀ k, (alGet fobj k).isSome ↔ k ∈ fields) ∧
      ∀ f ∈ fields, ∃ cur, alGet fobj f = some cur ∧ cur.Nodup ∧
        ∀ x, x ∈ cur ↔ ∃ t, x = JVal.str t ∧ t ∈ specCollected brs f := by
  have hM0 : DictInv fields (fields.foldl (fun d f => alSet d f []) []) (fun _ => []) := by
    constructor
    · intro k
      rw [alGet_foldl_const]
      by_cases hkf : k ∈ fields <;> simp [hkf, alGet]
    · intro f hf
      refine ⟨[], ?_, ?_⟩
      · rw [alGet_foldl_const]
        simp [hf]
      · intro x
        simp
  obtain ⟨d1, hfold1, hinv1⟩ := merge_outer_fold fields brs hwf _ _ hM0
  have hinv1b : DictInv fields d1 (fun g => specCollected brs g) := by
    refine DictInv_congr fields d1 _ _ ?_ hinv1
    intro g _ t
    simp
  obtain ⟨hk1, hP1⟩ := hinv1b
  obtain ⟨d2, hfold2, hk2, hP2⟩ := dedup_fold_char fields fields (fun g hg => hg) d1
    (fun g => specCollected brs g) (fun _ => False)
    ⟨hk1, fun f hf => by
      obtain ⟨cur, h1, h2⟩ := hP1 f hf
      exact ⟨cur, h1, h2, False.elim⟩⟩
  have hsum := summary_fold_char fields brs hwf []
  rw [List.nil_append] at hsum
  refine ⟨d2, ?_, hk2, ?_⟩
  · unfold manual_aggregation
    rw [hfold1, pure_bind, hfold2, pure_bind, hsum, pure_bind, mapM_str_ok, pure_bind]
    unfold specSummary
    rfl
  · intro f hf
    obtain ⟨cur, h1, h2, h3⟩ := hP2 f hf
    exact ⟨cur, h1, h3 (Or.inr hf), h2⟩

/-! ### Claim C6 -/

/-- C6: for every requested field list and every list of well-formed
BatchResults (the data model's shape), the fallback merge returns, for
each requested field, exactly the entries collected from every BatchResult
in input order — a batch omitting the field contributing nothing — with
exact duplicate values removed (the post-deduplication order is
unspecified, so the contents are characterized as a duplicate-free set),
and a summary equal to the non-empty partial summaries joined by single
spaces in batch order, or exactly "Analysis completed successfully." when
no batch produced a non-empty partial summary. -/
theorem manual_aggregation_spec (brs : List JVal) (fields : List String)
    (hwf : brs.all (isWFBatchResult fields) = true) :
    ∃ kvs fobj, manual_aggregation brs fields = .ok (.obj kvs) ∧
      alGet kvs ("fields") = some (.obj fobj) ∧
      alGet kvs ("summary") = some (.str (specSummary brs)) ∧
      (∀ k, (alGet fobj k).isSome ↔ k ∈ fields) ∧
      ∀ f ∈ fields, ∃ l : List String, alGet fobj f = some (.arr (l.map JVal.str)) ∧
        l.Nodup ∧ ∀ t, t ∈ l ↔ t ∈ specCollected brs f := by
  have hwf2 : ∀ r ∈ brs, isWFBatchResult fields r = true := by
    intro r hr
    exact List.all_eq_true.mp hwf r hr
  obtain ⟨fobj0, heq, hkeys, hP⟩ := manual_aggregation_char brs fields hwf2
  refine ⟨_, fobj0.map (fun kv => (kv.1, JVal.arr kv.2)), heq, by rfl, by rfl, ?_, ?_⟩
  · intro k
    rw [alGet_map_values]
    simp [hkeys k]
  · intro f hf
    obtain ⟨cur, h1, hnd, hmem⟩ := hP f hf
    have hstr : ∀ x ∈ cur, ∃ t, x = JVal.str t := by
      intro x hx
      obtain ⟨t, rfl, _⟩ := (hmem x).mp hx
      exact ⟨t, rfl⟩
    have hcur_eq := all_str_eq cur hstr
    refine ⟨cur.filterMap (fun x => match x with
      | JVal.str s => some s
      | _ => none), ?_, ?_, ?_⟩
    · rw [alGet_map_values, h1, ← hcur_eq]
      rfl
    · rw [hcur_eq] at hnd
      exact List.Nodup.of_map _ hnd
    · intro t
      constructor
      · intro ht
        have hin : JVal.str t ∈ cur := by
          rw [hcur_eq]
          exact List.mem_map_of_mem _ ht
        obtain ⟨t2, he, ht2⟩ := (hmem _).mp hin
        have ht3 : t = t2 := by injection he
        rw [ht3]
        exact ht2
      · intro ht
        have hin : JVal.str t ∈ cur := (hmem _).mpr ⟨t, rfl, ht⟩
        rw [hcur_eq] at hin
        obtain ⟨t2, ht2, he⟩ := List.mem_map.mp hin
        have ht3 : t2 = t := by injection he
        rw [← ht3]
        exact ht2

/-- Witness for C6 at two concrete batch results (a shared entry "X" is
deduplicated; the empty partial summary of the second batch is skipped). -/
theorem manual_aggregation_spec_witness :
    ([.obj [("fields", .obj [("T", .arr [.str "X", .str "Y"])]),
        ("partial_summary", .str "s1")],
      .obj [("fields", .obj [("T", .arr [.str "X"])]),
        ("partial_summary", .str "")]] : List JVal).all (isWFBatchResult ["T"]) = true ∧
    (∃ kvs fobj, manual_aggregation
        [.obj [("fields", .obj [("T", .arr [.str "X", .str "Y"])]),
          ("partial_summary", .str "s1")],
         .obj [("fields", .obj [("T", .arr [.str "X"])]),
          ("partial_summary", .str "")]] ["T"] = .ok (.obj kvs) ∧
      alGet kvs ("fields") = some (.obj fobj) ∧
      alGet kvs ("summary") = some (.str (specSummary
        [.obj [("fields", .obj [("T", .arr [.str "X", .str "Y"])]),
          ("partial_summary", .str "s1")],
         .obj [("fields", .obj [("T", .arr [.str "X"])]),
          ("partial_summary", .str "")]])) ∧
      (∀ k, (alGet fobj k).isSome ↔ k ∈ ["T"]) ∧
      ∀ f ∈ ["T"], ∃ l : List String, alGet fobj f = some (.arr (l.map JVal.str)) ∧
        l.Nodup ∧ ∀ t, t ∈ l ↔ t ∈ specCollected
          [.obj [("fields", .obj [("T", .arr [.str "X", .str "Y"])]),
            ("partial_summary", .str "s1")],
           .obj [("fields", .obj [("T", .arr [.str "X"])]),
            ("partial_summary", .str "")]] f) :=
  ⟨by rfl, manual_aggregation_spec _ ["T"] (by rfl)⟩

/-! ### Claims C1 and C3 -/

/-- Reduction of a bind on an `Except.ok` value. -/
theorem exceptBind_ok {α β : Type} (a : α) (g : α → Except PyErr β) :
    (Except.ok a >>= g : Except PyErr β) = g a := rfl

/-- A normalization-loop iteration on a field already present leaves the
result unchanged. -/
theorem ensureFieldStep_mem (kvs fkvs : List (String × JVal)) (f : String)
    (h : alGet kvs ("fields") = some (.obj fkvs))
    (hm : (alGet fkvs f).isSome = true) :
    ensureFieldStep (.obj kvs) f = pure (.obj kvs) := by
  simp only [ensureFieldStep, pyGetItem, h, pyContains, exceptBind_ok, hm]
  rfl

/-- A normalization-loop iteration on a missing field inserts it as an
empty list. -/
theorem ensureFieldStep_new (kvs fkvs : List (String × JVal)) (f : String)
    (h : alGet kvs ("fields") = some (.obj fkvs))
    (hm : (alGet fkvs f).isSome = false) :
    ensureFieldStep (.obj kvs) f =
      pure (.obj (alSet kvs ("fields") (.obj (alSet fkvs f (.arr []))))) := by
  simp only [ensureFieldStep, pyGetItem, h, pyContains, exceptBind_ok, hm, pySetItem]
  rfl

/-- The normalization loop over a dict-shaped `fields` member: it
succeeds, keeps every existing member (including keys outside the request)
with its value, and inserts every missing requested field as `[]`. -/
theorem ensure_fold (fields : List String) :
    ∀ (kvs fkvs : List (String × JVal)), alGet kvs ("fields") = some (.obj fkvs) →
      ∃ fkvs2, fields.foldlM ensureFieldStep (.obj kvs) =
          pure (.obj (alSet kvs ("fields") (.obj fkvs2))) ∧
        (∀ k, (alGet fkvs2 k).isSome ↔ ((alGet fkvs k).isSome ∨ k ∈ fields)) ∧
        (∀ k w, alGet fkvs k = some w → alGet fkvs2 k = some w) ∧
        (∀ f ∈ fields, alGet fkvs f = none → alGet fkvs2 f = some (.arr [])) := by
  induction fields with
  | nil =>
      intro kvs fkvs h
      refine ⟨fkvs, ?_, ?_, ?_, ?_⟩
      · show pure (JVal.obj kvs) = _
        rw [alSet_of_get kvs ("fields") (.obj fkvs) h]
      · intro k
        simp
      · intro k w hw
        exact hw
      · intro f hf
        exact absurd hf (List.not_mem_nil f)
  | cons f fs ih =>
      intro kvs fkvs h
      cases hm : (alGet fkvs f).isSome with
      | true =>
          have hstep := ensureFieldStep_mem kvs fkvs f h hm
          obtain ⟨fkvs2, hfold, hiff, hpres, hnew⟩ := ih kvs fkvs h
          refine ⟨fkvs2, ?_, ?_, hpres, ?_⟩
          · rw [List.foldlM_cons, hstep, pure_bind]
            exact hfold
          · intro k
            rw [hiff k, List.mem_cons]
            by_cases hk : k = f
            · subst hk
              simp [hm]
            · simp [hk]
          · intro g hg hnone
            rw [List.mem_cons] at hg
            rcases hg with rfl | hg
            · rw [hnone] at hm
              simp at hm
            · exact hnew g hg hnone
      | false =>
          have hstep := ensureFieldStep_new kvs fkvs f h hm
          have h2 : alGet (alSet kvs ("fields") (.obj (alSet fkvs f (.arr [])))) ("fields")
              = some (.obj (alSet fkvs f (.arr []))) := by
            rw [alGet_alSet]
            simp
          obtain ⟨fkvs2, hfold, hiff, hpres, hnew⟩ := ih _ _ h2
          refine ⟨fkvs2, ?_, ?_, ?_, ?_⟩
          · rw [List.foldlM_cons, hstep, pure_bind, hfold, alSet_alSet]
          · intro k
            rw [hiff k, alGet_alSet, List.mem_cons]
            by_cases hk : f = k
            · subst hk
              simp [hm]
            · have hk2 : ¬ k = f := fun he => hk he.symm
              simp [hk, hk2]
          · intro k w hw
            apply hpres
            have hk : ¬ f = k := by
              intro he
              subst he
              rw [hw] at hm
              simp at hm
            rw [alGet_alSet, if_neg hk]
            exact hw
          · intro g hg hnone
            rw [List.mem_cons] at hg
            rcases hg with rfl | hg
            · apply hpres
              rw [alGet_alSet, if_pos rfl]
            · by_cases hfg : f = g
              · apply hpres
                rw [alGet_alSet, if_pos hfg]
              · apply hnew g hg
                rw [alGet_alSet, if_neg hfg]
                exact hnone

/-- The post-parse normalization on a parsed object whose `fields` member
is an object: it succeeds and behaves as the loop characterization. -/
theorem ensureFields_obj (kvs fkvs : List (String × JVal)) (fields : List String)
    (h : alGet kvs ("fields") = some (.obj fkvs)) :
    ∃ fkvs2, ensureFields (.obj kvs) fields =
        .ok (.obj (alSet kvs ("fields") (.obj fkvs2))) ∧
      (∀ k, (alGet fkvs2 k).isSome ↔ ((alGet fkvs k).isSome ∨ k ∈ fields)) ∧
      (∀ k w, alGet fkvs k = some w → alGet fkvs2 k = some w) ∧
      (∀ f ∈ fields, alGet fkvs f = none → alGet fkvs2 f = some (.arr [])) := by
  obtain ⟨fkvs2, hfold, hiff, hpres, hnew⟩ := ensure_fold fields kvs fkvs h
  refine ⟨fkvs2, ?_, hiff, hpres, hnew⟩
  unfold ensureFields
  have hc : pyContains (.obj kvs) ("fields") = pure true := by
    simp only [pyContains, h]
    rfl
  rw [hc, pure_bind]
  exact hfold

/-- The `Batch i:` summary-line construction before the `try` block
succeeds on dict batch results. -/
theorem batch_summaries_ok : ∀ (brs : List JVal),
    (∀ r ∈ brs, isObjB r = true) →
    ∃ l, brs.mapM (fun r => pyDictGet r ("partial_summary") (JVal.str "")) = pure l := by
  intro brs
  induction brs with
  | nil => exact fun _ => ⟨[], rfl⟩
  | cons r rs ih =>
      intro h
      have h1 := h r (List.mem_cons_self r rs)
      obtain ⟨l, hl⟩ := ih (fun x hx => h x (List.mem_cons_of_mem r hx))
      cases r with
      | obj kvs =>
          refine ⟨((alGet kvs "partial_summary").getD (.str "")) :: l, ?_⟩
          rw [List.mapM_cons]
          have hg : pyDictGet (.obj kvs) ("partial_summary") (.str "") =
              pure ((alGet kvs "partial_summary").getD (.str "")) := rfl
          rw [hg, pure_bind, hl, pure_bind]
      | null => simp [isObjB] at h1
      | bool b => simp [isObjB] at h1
      | num n => simp [isObjB] at h1
      | str s => simp [isObjB] at h1
      | arr xs => simp [isObjB] at h1

/-- A well-formed batch result is a dict. -/
theorem wf_is_obj (fields : List String) (r : JVal)
    (h : isWFBatchResult fields r = true) : isObjB r = true := by
  cases r <;> simp [isWFBatchResult, isObjB] at h ⊢

/-- Reduction of a bind on an `Except.error` value. -/
theorem exceptBind_err {α β : Type} (e : PyErr) (g : α → Except PyErr β) :
    (Except.error e >>= g : Except PyErr β) = Except.error e := rfl

/-- A normalization-loop iteration that succeeds returns a dict that still
has a `fields` member; the processed field now passes the Python `in` test
against it, and every field that already passed keeps passing. -/
theorem ensureFieldStep_char (kvs : List (String × JVal)) (fv : JVal) (f : String)
    (h : alGet kvs ("fields") = some fv) (r2 : JVal)
    (hok : ensureFieldStep (.obj kvs) f = .ok r2) :
    ∃ kvs2 fv2, r2 = .obj kvs2 ∧ alGet kvs2 ("fields") = some fv2 ∧
      pyContains fv2 f = .ok true ∧
      (∀ g, pyContains fv g = .ok true → pyContains fv2 g = .ok true) := by
  cases fv with
  | null =>
      have hcomp : ensureFieldStep (.obj kvs) f = .error .typeError := by
        simp only [ensureFieldStep, pyGetItem, h, exceptBind_ok]
        rfl
      rw [hcomp] at hok
      exact Except.noConfusion hok
  | bool b =>
      have hcomp : ensureFieldStep (.obj kvs) f = .error .typeError := by
        simp only [ensureFieldStep, pyGetItem, h, exceptBind_ok]
        rfl
      rw [hcomp] at hok
      exact Except.noConfusion hok
  | num n =>
      have hcomp : ensureFieldStep (.obj kvs) f = .error .typeError := by
        simp only [ensureFieldStep, pyGetItem, h, exceptBind_ok]
        rfl
      rw [hcomp] at hok
      exact Except.noConfusion hok
  | str s =>
      cases hm : pyInStr f s with
      | true =>
          have hcomp : ensureFieldStep (.obj kvs) f = .ok (.obj kvs) := by
            simp only [ensureFieldStep, pyGetItem, h, pyContains, exceptBind_ok, hm]
            rfl
          rw [hcomp] at hok
          have hv : JVal.obj kvs = r2 := Except.ok.inj hok
          refine ⟨kvs, .str s, hv.symm, h, ?_, fun g hg => hg⟩
          simp only [pyContains, hm]
      | false =>
          have hcomp : ensureFieldStep (.obj kvs) f = .error .typeError := by
            simp only [ensureFieldStep, pyGetItem, h, pyContains, exceptBind_ok, hm]
            rfl
          rw [hcomp] at hok
          exact Except.noConfusion hok
  | arr xs =>
      cases hm : xs.any (fun x => decide (x = JVal.str f)) with
      | true =>
          have hcomp : ensureFieldStep (.obj kvs) f = .ok (.obj kvs) := by
            simp only [ensureFieldStep, pyGetItem, h, pyContains, exceptBind_ok, hm]
            rfl
          rw [hcomp] at hok
          have hv : JVal.obj kvs = r2 := Except.ok.inj hok
          refine ⟨kvs, .arr xs, hv.symm, h, ?_, fun g hg => hg⟩
          simp only [pyContains, hm]
      | false =>
          have hcomp : ensureFieldStep (.obj kvs) f = .error .typeError := by
            simp only [ensureFieldStep, pyGetItem, h, pyContains, exceptBind_ok, hm]
            rfl
          rw [hcomp] at hok
          exact Except.noConfusion hok
  | obj o =>
      cases hm : (alGet o f).isSome with
      | true =>
          have hstep := ensureFieldStep_mem kvs o f h hm
          rw [hstep] at hok
          have hv : JVal.obj kvs = r2 := Except.ok.inj hok
          refine ⟨kvs, .obj o, hv.symm, h, ?_, fun g hg => hg⟩
          simp only [pyContains, hm]
      | false =>
          have hstep := ensureFieldStep_new kvs o f h hm
          rw [hstep] at hok
          have hv : JVal.obj (alSet kvs ("fields") (.obj (alSet o f (.arr [])))) = r2 :=
            Except.ok.inj hok
          refine ⟨alSet kvs ("fields") (.obj (alSet o f (.arr []))),
            .obj (alSet o f (.arr [])), hv.symm, ?_, ?_, ?_⟩
          · rw [alGet_alSet, if_pos rfl]
          · simp [pyContains, alGet_alSet]
          · intro g hg
            have hgo : (alGet o g).isSome = true := Except.ok.inj hg
            by_cases hfg : f = g
            · simp [pyContains, alGet_alSet, hfg]
            · simp [pyContains, alGet_alSet, hfg, hgo]

/-- Running the normalization loop from a dict that has a `fields` member:
if it succeeds, the result is a dict whose `fields` member passes the
Python `in` test for every processed field, and every field that passed
against the starting member keeps passing. -/
theorem ensure_fold_contains (fields : List String) :
    ∀ (kvs : List (String × JVal)) (fv : JVal),
      alGet kvs ("fields") = some fv →
      ∀ v2, fields.foldlM ensureFieldStep (JVal.obj kvs) = .ok v2 →
      ∃ kvs2 fv2, v2 = .obj kvs2 ∧ alGet kvs2 ("fields") = some fv2 ∧
        (∀ f ∈ fields, pyContains fv2 f = .ok true) ∧
        (∀ g, pyContains fv g = .ok true → pyContains fv2 g = .ok true) := by
  induction fields with
  | nil =>
      intro kvs fv h v2 hok
      have hv2 : JVal.obj kvs = v2 := Except.ok.inj hok
      refine ⟨kvs, fv, hv2.symm, h, ?_, fun g hg => hg⟩
      intro f hf
      exact absurd hf (List.not_mem_nil f)
  | cons f fs ih =>
      intro kvs fv h v2 hok
      rw [List.foldlM_cons] at hok
      cases hstep : ensureFieldStep (.obj kvs) f with
      | error e =>
          rw [hstep, exceptBind_err] at hok
          exact Except.noConfusion hok
      | ok r1 =>
          rw [hstep, exceptBind_ok] at hok
          obtain ⟨kvs1, fv1, hr1, h1, hc1, hmono1⟩ :=
            ensureFieldStep_char kvs fv f h r1 hstep
          subst hr1
          obtain ⟨kvs2, fv2, hv2, h2, hall2, hmono2⟩ := ih kvs1 fv1 h1 v2 hok
          refine ⟨kvs2, fv2, hv2, h2, ?_, fun g hg => hmono2 g (hmono1 g hg)⟩
          intro g hg
          rcases List.mem_cons.mp hg with rfl | hg2
          · exact hmono2 g hc1
          · exact hall2 g hg2

/-- Whenever the whole post-parse normalization succeeds on any parsed
value with a non-empty field list, the value it returns is a dict whose
`fields` member passes the Python `in` test for every requested field —
and nothing more: for a non-dict `fields` member the test can hold by
substring or element membership. -/
theorem ensureFields_ok_char (v : JVal) (fields : List String) (v2 : JVal)
    (hf : fields ≠ []) (hok : ensureFields v fields = .ok v2) :
    ∃ kvs2 fv2, v2 = .obj kvs2 ∧ alGet kvs2 ("fields") = some fv2 ∧
      ∀ f ∈ fields, pyContains fv2 f = .ok true := by
  cases v with
  | null =>
      have hc : ensureFields JVal.null fields = .error .typeError := rfl
      rw [hc] at hok
      exact Except.noConfusion hok
  | bool b =>
      have hc : ensureFields (JVal.bool b) fields = .error .typeError := rfl
      rw [hc] at hok
      exact Except.noConfusion hok
  | num n =>
      have hc : ensureFields (JVal.num n) fields = .error .typeError := rfl
      rw [hc] at hok
      exact Except.noConfusion hok
  | str s =>
      cases hm : pyInStr ("fields") s with
      | false =>
          have hc : ensureFields (JVal.str s) fields = .error .typeError := by
            simp only [ensureFields, pyContains, hm, exceptBind_ok]
            rfl
          rw [hc] at hok
          exact Except.noConfusion hok
      | true =>
          cases fields with
          | nil => exact absurd rfl hf
          | cons f fs =>
              have hc : ensureFields (JVal.str s) (f :: fs) = .error .typeError := by
                simp only [ensureFields, pyContains, hm, exceptBind_ok, List.foldlM_cons]
                rfl
              rw [hc] at hok
              exact Except.noConfusion hok
  | arr xs =>
      cases hm : xs.any (fun x => decide (x = JVal.str ("fields"))) with
      | false =>
          have hc : ensureFields (JVal.arr xs) fields = .error .typeError := by
            simp only [ensureFields, pyContains, hm, exceptBind_ok]
            rfl
          rw [hc] at hok
          exact Except.noConfusion hok
      | true =>
          cases fields with
          | nil => exact absurd rfl hf
          | cons f fs =>
              have hc : ensureFields (JVal.arr xs) (f :: fs) = .error .typeError := by
                simp only [ensureFields, pyContains, hm, exceptBind_ok, List.foldlM_cons]
                rfl
              rw [hc] at hok
              exact Except.noConfusion hok
  | obj kvs =>
      cases hF : alGet kvs ("fields") with
      | some fv =>
          have hc : ensureFields (JVal.obj kvs) fields =
              fields.foldlM ensureFieldStep (JVal.obj kvs) := by
            simp only [ensureFields, pyContains, hF, exceptBind_ok]
            rfl
          rw [hc] at hok
          obtain ⟨kvs2, fv2, h1, h2, h3, _⟩ := ensure_fold_contains fields kvs fv hF v2 hok
          exact ⟨kvs2, fv2, h1, h2, h3⟩
      | none =>
          have h2 : alGet (alSet kvs ("fields") (JVal.obj [])) ("fields") =
              some (JVal.obj []) := by
            rw [alGet_alSet, if_pos rfl]
          have hc : ensureFields (JVal.obj kvs) fields =
              fields.foldlM ensureFieldStep
                (JVal.obj (alSet kvs ("fields") (JVal.obj []))) := by
            simp only [ensureFields, pyContains, hF, exceptBind_ok, pySetItem]
            rfl
          rw [hc] at hok
          obtain ⟨kvs2, fv2, hh1, hh2, hh3, _⟩ :=
            ensure_fold_contains fields (alSet kvs ("fields") (JVal.obj []))
              (JVal.obj []) h2 v2 hok
          exact ⟨kvs2, fv2, hh1, hh2, hh3⟩

/-- When `_aggregate_results` does not raise before its `try` block, its
result is either the manual fallback's, or the normalized parsed model
reply. -/
theorem aggregate_results_cases (reply : Option String) (brs : List JVal)
    (fields : List String) (hobj : ∀ r ∈ brs, isObjB r = true)
    (hfe : fields.isEmpty = false) :
    aggregate_results reply brs fields = manual_aggregation brs fields ∨
    ∃ raw v v2, reply = some raw ∧ parse_llm_reply raw = some v ∧
      ensureFields v fields = .ok v2 ∧
      aggregate_results reply brs fields = .ok v2 := by
  obtain ⟨l0, hpre⟩ := batch_summaries_ok brs hobj
  cases reply with
  | none =>
      left
      unfold aggregate_results
      rw [hpre, pure_bind, hfe]
      simp only [Bool.false_eq_true, if_false]
  | some raw =>
      cases hp : parse_llm_reply raw with
      | none =>
          left
          unfold aggregate_results
          rw [hpre, pure_bind, hfe]
          simp only [Bool.false_eq_true, if_false, hp]
      | some v =>
          cases he : ensureFields v fields with
          | error e =>
              left
              unfold aggregate_results
              rw [hpre, pure_bind, hfe]
              simp only [Bool.false_eq_true, if_false, hp, he]
          | ok w =>
              right
              refine ⟨raw, v, w, rfl, hp, he, ?_⟩
              unfold aggregate_results
              rw [hpre, pure_bind, hfe]
              simp only [Bool.false_eq_true, if_false, hp, he]

/-- C1 counterexample: a model reply whose `fields` object carries the
extra key `Extra` keeps that key after aggregation, so the result's
`fields` mapping does not have exactly the requested keys on the
model-assisted path; and a reply whose `fields` member is the string
"Skills" is returned entirely unchanged — the substring `in` test
suppresses the insertion — so no requested field is a key of any mapping
at all. -/
theorem aggregate_extra_key_cex :
    aggregate_results
      (some ("\x7b\"fields\": \x7b\"Extra\": []\x7d, \"summary\": \"s\"\x7d"))
      [] ["Skills"] =
      .ok (.obj [("fields", .obj [("Extra", .arr []), ("Skills", .arr [])]),
        ("summary", .str "s")]) ∧
    "Extra" ∉ ["Skills"] ∧
    aggregate_results (some ("\x7b\"fields\": \"Skills\"\x7d")) [] ["Skills"] =
      .ok (.obj [("fields", .str "Skills")]) := by
  refine ⟨rfl, by decide, rfl⟩

set_option maxHeartbeats 1600000 in
/-- C1 (amended): on the fallback path the result's `fields` mapping has
exactly the requested keys, each an array.  On the model-assisted path the
guarantee is weaker: any result that completes normalization is a dict
whose `fields` member passes Python's `in` membership test for every
requested field; when the reply's `fields` member is an object the
normalization inserts every missing requested field as `[]` and keeps
every key the reply supplied (extra keys survive), and when the member is
absent it is inserted as an empty dict and ends with exactly the requested
keys — but a non-object `fields` member can satisfy the membership test
by substring or element membership and is returned unchanged, so the
requested fields need not be keys of any mapping. -/
theorem aggregate_fields_keys_amended (reply : Option String) (brs : List JVal)
    (fields : List String)
    (hwf : ∀ r ∈ brs, isWFBatchResult fields r = true)
    (hf : fields ≠ []) :
    (∃ kvsF fobjF, manual_aggregation brs fields = .ok (.obj kvsF) ∧
      aggregate_results none brs fields = .ok (.obj kvsF) ∧
      alGet kvsF ("fields") = some (.obj fobjF) ∧
      (∀ k, (alGet fobjF k).isSome ↔ k ∈ fields) ∧
      (∀ k w, alGet fobjF k = some w → ∃ xs, w = JVal.arr xs)) ∧
    (∀ v2, aggregate_results reply brs fields = .ok v2 →
      ∃ kvs2 fv2, v2 = .obj kvs2 ∧ alGet kvs2 ("fields") = some fv2 ∧
        ∀ f ∈ fields, pyContains fv2 f = .ok true) ∧
    (∀ raw kvs fkvs, reply = some raw → parse_llm_reply raw = some (.obj kvs) →
      alGet kvs ("fields") = some (.obj fkvs) →
      ∃ fkvs2, aggregate_results reply brs fields =
          .ok (.obj (alSet kvs ("fields") (.obj fkvs2))) ∧
        (∀ k, (alGet fkvs2 k).isSome ↔ ((alGet fkvs k).isSome ∨ k ∈ fields)) ∧
        (∀ k w, alGet fkvs k = some w → alGet fkvs2 k = some w) ∧
        (∀ f ∈ fields, alGet fkvs f = none → alGet fkvs2 f = some (.arr []))) ∧
    (∀ raw kvs, reply = some raw → parse_llm_reply raw = some (.obj kvs) →
      alGet kvs ("fields") = none →
      ∃ fkvs2, aggregate_results reply brs fields =
          .ok (.obj (alSet kvs ("fields") (.obj fkvs2))) ∧
        (∀ k, (alGet fkvs2 k).isSome ↔ k ∈ fields) ∧
        (∀ f ∈ fields, alGet fkvs2 f = some (.arr []))) := by
  have hfe : fields.isEmpty = false := by
    cases fields with
    | nil => exact absurd rfl hf
    | cons a l => rfl
  have hobj : ∀ r ∈ brs, isObjB r = true :=
    fun r hr => wf_is_obj fields r (hwf r hr)
  obtain ⟨l0, hpre⟩ := batch_summaries_ok brs hobj
  refine ⟨?_, ?_, ?_, ?_⟩
  · obtain ⟨fobj0, heq, hkeys, hP⟩ := manual_aggregation_char brs fields hwf
    refine ⟨[("fields", JVal.obj (fobj0.map (fun kv => (kv.1, JVal.arr kv.2)))),
        ("summary", JVal.str (specSummary brs))],
      fobj0.map (fun kv => (kv.1, JVal.arr kv.2)), heq, ?_, by rfl, ?_, ?_⟩
    · unfold aggregate_results
      rw [hpre, pure_bind, hfe]
      simp only [Bool.false_eq_true, if_false]
      exact heq
    · intro k
      rw [alGet_map_values]
      simp [hkeys k]
    · intro k w hw
      rw [alGet_map_values] at hw
      cases hg : alGet fobj0 k with
      | none => rw [hg] at hw; simp at hw
      | some xs =>
          rw [hg] at hw
          simp at hw
          exact ⟨xs, hw.symm⟩
  · intro v2 hok
    rcases aggregate_results_cases reply brs fields hobj hfe with
      hMA | ⟨raw, v, w, hr, hp, he, heq⟩
    · rw [hMA] at hok
      obtain ⟨fobj0, heq0, hkeys, hP⟩ := manual_aggregation_char brs fields hwf
      rw [heq0] at hok
      obtain rfl : JVal.obj
          [("fields", JVal.obj (fobj0.map (fun kv => (kv.1, JVal.arr kv.2)))),
           ("summary", JVal.str (specSummary brs))] = v2 := Except.ok.inj hok
      refine ⟨[("fields", JVal.obj (fobj0.map (fun kv => (kv.1, JVal.arr kv.2)))),
          ("summary", JVal.str (specSummary brs))],
        JVal.obj (fobj0.map (fun kv => (kv.1, JVal.arr kv.2))), rfl, by rfl, ?_⟩
      intro f hfm
      have hs : (alGet fobj0 f).isSome = true := (hkeys f).mpr hfm
      cases halg : alGet fobj0 f with
      | none => rw [halg] at hs; simp at hs
      | some xs => simp [pyContains, alGet_map_values, halg]
    · rw [heq] at hok
      obtain rfl : w = v2 := Except.ok.inj hok
      exact ensureFields_ok_char v fields w hf he
  · intro raw kvs fkvs hr hp hfv
    subst hr
    obtain ⟨fkvs2, hens, hiff, hpres, hnew⟩ := ensureFields_obj kvs fkvs fields hfv
    refine ⟨fkvs2, ?_, hiff, hpres, hnew⟩
    unfold aggregate_results
    rw [hpre, pure_bind, hfe]
    simp only [Bool.false_eq_true, if_false, hp, hens]
  · intro raw kvs hr hp hF
    subst hr
    have h2 : alGet (alSet kvs ("fields") (JVal.obj [])) ("fields") =
        some (JVal.obj []) := by
      rw [alGet_alSet, if_pos rfl]
    obtain ⟨fkvs2, hfold, hiff, hpres, hnew⟩ :=
      ensure_fold fields (alSet kvs ("fields") (JVal.obj [])) [] h2
    have hens : ensureFields (.obj kvs) fields =
        .ok (.obj (alSet kvs ("fields") (.obj fkvs2))) := by
      have hcomp : ensureFields (JVal.obj kvs) fields =
          fields.foldlM ensureFieldStep
            (JVal.obj (alSet kvs ("fields") (JVal.obj []))) := by
        simp only [ensureFields, pyContains, hF, exceptBind_ok, pySetItem]
        rfl
      rw [hcomp, hfold, alSet_alSet]
      rfl
    refine ⟨fkvs2, ?_, ?_, ?_⟩
    · unfold aggregate_results
      rw [hpre, pure_bind, hfe]
      simp only [Bool.false_eq_true, if_false, hp, hens]
    · intro k
      rw [hiff k]
      simp [alGet]
    · intro f hf2
      exact hnew f hf2 rfl

/-- Witness for C1 (amended) at a concrete reply carrying the extra key
`Extra`. -/
theorem aggregate_fields_keys_amended_witness :
    (∀ r ∈ ([] : List JVal), isWFBatchResult ["Skills"] r = true) ∧
    (["Skills"] : List String) ≠ [] ∧
    ((∃ kvsF fobjF, manual_aggregation [] ["Skills"] = .ok (.obj kvsF) ∧
      aggregate_results none [] ["Skills"] = .ok (.obj kvsF) ∧
      alGet kvsF ("fields") = some (.obj fobjF) ∧
      (∀ k, (alGet fobjF k).isSome ↔ k ∈ ["Skills"]) ∧
      (∀ k w, alGet fobjF k = some w → ∃ xs, w = JVal.arr xs)) ∧
    (∀ v2, aggregate_results (some ("\x7b\"fields\": \x7b\"Extra\": []\x7d\x7d"))
        [] ["Skills"] = .ok v2 →
      ∃ kvs2 fv2, v2 = .obj kvs2 ∧ alGet kvs2 ("fields") = some fv2 ∧
        ∀ f ∈ ["Skills"], pyContains fv2 f = .ok true) ∧
    (∀ raw kvs fkvs,
      (some ("\x7b\"fields\": \x7b\"Extra\": []\x7d\x7d") : Option String) = some raw →
      parse_llm_reply raw = some (.obj kvs) →
      alGet kvs ("fields") = some (.obj fkvs) →
      ∃ fkvs2, aggregate_results (some ("\x7b\"fields\": \x7b\"Extra\": []\x7d\x7d"))
          [] ["Skills"] = .ok (.obj (alSet kvs ("fields") (.obj fkvs2))) ∧
        (∀ k, (alGet fkvs2 k).isSome ↔ ((alGet fkvs k).isSome ∨ k ∈ ["Skills"])) ∧
        (∀ k w, alGet fkvs k = some w → alGet fkvs2 k = some w) ∧
        (∀ f ∈ ["Skills"], alGet fkvs f = none → alGet fkvs2 f = some (.arr []))) ∧
    (∀ raw kvs,
      (some ("\x7b\"fields\": \x7b\"Extra\": []\x7d\x7d") : Option String) = some raw →
      parse_llm_reply raw = some (.obj kvs) →
      alGet kvs ("fields") = none →
      ∃ fkvs2, aggregate_results (some ("\x7b\"fields\": \x7b\"Extra\": []\x7d\x7d"))
          [] ["Skills"] = .ok (.obj (alSet kvs ("fields") (.obj fkvs2))) ∧
        (∀ k, (alGet fkvs2 k).isSome ↔ k ∈ ["Skills"]) ∧
        (∀ f ∈ ["Skills"], alGet fkvs2 f = some (.arr [])))) :=
  ⟨fun r hr => absurd hr (List.not_mem_nil r), by decide,
    aggregate_fields_keys_amended
      (some ("\x7b\"fields\": \x7b\"Extra\": []\x7d\x7d")) [] ["Skills"]
      (fun r hr => absurd hr (List.not_mem_nil r)) (by decide)⟩

/-- C3 counterexample: the reply `[1, 2]` parses as JSON successfully, but
the post-parse normalization raises a `TypeError` (list indices are not
strings), and the broad `except Exception` routes exactly this case into
the manual fallback — the fallback IS entered for an exception after a
successful parse. -/
theorem aggregate_post_parse_fallback_cex :
    json_loads ("[1, 2]") = some (.arr [.num 1, .num 2]) ∧
    ensureFields (.arr [.num 1, .num 2]) ["Skills"] = .error .typeError ∧
    aggregateUsedFallback (some ("[1, 2]")) [] ["Skills"] = some true ∧
    aggregate_results (some ("[1, 2]")) [] ["Skills"] =
      manual_aggregation [] ["Skills"] := by
  refine ⟨rfl, rfl, rfl, rfl⟩

set_option maxHeartbeats 1600000 in
/-- C3 (amended): when `_aggregate_results` does not itself raise before
its `try` block (all batch results are dicts and the field list is
non-empty), the manual fallback is entered exactly when the model call
fails, OR its output fails to parse as JSON, OR the post-parse
normalization of the parsed value raises — the last case included because
the second `except Exception` handler also routes post-parse errors to the
fallback; otherwise the normalized parsed value is returned. -/
theorem aggregate_fallback_condition_amended (reply : Option String)
    (brs : List JVal) (fields : List String)
    (hobj : brs.all isObjB = true) (hf : fields ≠ []) :
    (aggregateUsedFallback reply brs fields = some true ↔
      (reply = none ∨ ∃ raw, reply = some raw ∧
        (parse_llm_reply raw = none ∨
          ∃ v e, parse_llm_reply raw = some v ∧ ensureFields v fields = .error e))) ∧
    (aggregateUsedFallback reply brs fields = some true →
      aggregate_results reply brs fields = manual_aggregation brs fields) ∧
    (aggregateUsedFallback reply brs fields = some false →
      ∃ raw v w, reply = some raw ∧ parse_llm_reply raw = some v ∧
        ensureFields v fields = .ok w ∧
        aggregate_results reply brs fields = .ok w) := by
  have hfe : fields.isEmpty = false := by
    cases fields with
    | nil => exact absurd rfl hf
    | cons a l => rfl
  obtain ⟨l0, hpre⟩ := batch_summaries_ok brs (List.all_eq_true.mp hobj)
  cases reply with
  | none =>
      have e1 : aggregateUsedFallback none brs fields = some true := by
        unfold aggregateUsedFallback
        rw [if_pos hobj, if_neg (by simp [hfe])]
      have e2 : aggregate_results none brs fields = manual_aggregation brs fields := by
        unfold aggregate_results
        rw [hpre, pure_bind, hfe]
        simp only [Bool.false_eq_true, if_false]
      rw [e1, e2]
      refine ⟨?_, fun _ => rfl, ?_⟩
      · constructor
        · exact fun _ => Or.inl rfl
        · exact fun _ => rfl
      · intro h
        simp at h
  | some raw =>
      cases hp : parse_llm_reply raw with
      | none =>
          have e1 : aggregateUsedFallback (some raw) brs fields = some true := by
            unfold aggregateUsedFallback
            rw [if_pos hobj, if_neg (by simp [hfe])]
            simp only [hp]
          have e2 : aggregate_results (some raw) brs fields =
              manual_aggregation brs fields := by
            unfold aggregate_results
            rw [hpre, pure_bind, hfe]
            simp only [Bool.false_eq_true, if_false, hp]
          rw [e1, e2]
          refine ⟨?_, fun _ => rfl, ?_⟩
          · constructor
            · exact fun _ => Or.inr ⟨raw, rfl, Or.inl hp⟩
            · exact fun _ => rfl
          · intro h
            simp at h
      | some v =>
          cases he : ensureFields v fields with
          | error e =>
              have e1 : aggregateUsedFallback (some raw) brs fields = some true := by
                unfold aggregateUsedFallback
                rw [if_pos hobj, if_neg (by simp [hfe])]
                simp only [hp, he]
              have e2 : aggregate_results (some raw) brs fields =
                  manual_aggregation brs fields := by
                unfold aggregate_results
                rw [hpre, pure_bind, hfe]
                simp only [Bool.false_eq_true, if_false, hp, he]
              rw [e1, e2]
              refine ⟨?_, fun _ => rfl, ?_⟩
              · constructor
                · exact fun _ => Or.inr ⟨raw, rfl, Or.inr ⟨v, e, hp, he⟩⟩
                · exact fun _ => rfl
              · intro h
                simp at h
          | ok w =>
              have e1 : aggregateUsedFallback (some raw) brs fields = some false := by
                unfold aggregateUsedFallback
                rw [if_pos hobj, if_neg (by simp [hfe])]
                simp only [hp, he]
              have e2 : aggregate_results (some raw) brs fields = .ok w := by
                unfold aggregate_results
                rw [hpre, pure_bind, hfe]
                simp only [Bool.false_eq_true, if_false, hp, he]
              rw [e1, e2]
              refine ⟨?_, ?_, fun _ => ⟨raw, v, w, rfl, hp, he, rfl⟩⟩
              · constructor
                · intro h
                  simp at h
                · intro h
                  exfalso
                  rcases h with h | ⟨raw2, he2, h⟩
                  · exact Option.noConfusion h
                  · have hr2 : raw2 = raw := by
                      injection he2 with he3
                      exact he3.symm
                    subst hr2
                    rcases h with h | ⟨v2, e2, hp2, he2b⟩
                    · rw [hp] at h
                      exact Option.noConfusion h
                    · rw [hp] at hp2
                      have hv2 : v2 = v := by
                        injection hp2 with h4
                        exact h4.symm
                      subst hv2
                      rw [he] at he2b
                      exact Except.noConfusion he2b
              · intro h
                simp at h

/-- Witness for C3 (amended) at a concrete post-parse failure. -/
theorem aggregate_fallback_condition_amended_witness :
    (([] : List JVal).all isObjB = true ∧ (["Skills"] : List String) ≠ []) ∧
    ((aggregateUsedFallback (some ("[1, 2]")) [] ["Skills"] = some true ↔
      (some ("[1, 2]") = none ∨ ∃ raw, some ("[1, 2]") = some raw ∧
        (parse_llm_reply raw = none ∨
          ∃ v e, parse_llm_reply raw = some v ∧ ensureFields v ["Skills"] = .error e))) ∧
    (aggregateUsedFallback (some ("[1, 2]")) [] ["Skills"] = some true →
      aggregate_results (some ("[1, 2]")) [] ["Skills"] =
        manual_aggregation [] ["Skills"]) ∧
    (aggregateUsedFallback (some ("[1, 2]")) [] ["Skills"] = some false →
      ∃ raw v w, some ("[1, 2]") = some raw ∧ parse_llm_reply raw = some v ∧
        ensureFields v ["Skills"] = .ok w ∧
        aggregate_results (some ("[1, 2]")) [] ["Skills"] = .ok w)) :=
  ⟨⟨rfl, by decide⟩,
    aggregate_fallback_condition_amended (some ("[1, 2]")) [] ["Skills"] rfl (by decide)⟩
